import Mathlib

/-!
Verification of the Hunter Tab Maker document model (src/App.tsx, src/types.ts).

Strings of the source are embedded as `List Char`; JS arrays as `List`;
fallible paths (JS `TypeError` on `undefined` element access) as `Option`.
`JSON.stringify`/`JSON.parse` snapshot pairs are modelled as the identity on
document values: on this data (plain records of strings, numbers and nulls)
the JSON round trip restores a structurally equal value, so history stacks
hold document values directly.
-/

namespace HunterTab

abbrev Str := List Char

/-- The whitespace class used by JS `String.prototype.trim` and regex `\s`:
space, tab, line terminators, vertical tab, form feed, NBSP, BOM and the
Unicode line/paragraph separators. -/
def isJsWhitespace (c : Char) : Bool :=
  c == ' ' || c == '\t' || c == '\n' || c == '\r' || c == '\x0b' ||
  c == '\x0c' || c == Char.ofNat 0x00A0 || c == Char.ofNat 0x2028 ||
  c == Char.ofNat 0x2029 || c == Char.ofNat 0xFEFF

/-- Line-terminator characters, which JS regex `.` does not match. -/
def isLineTerm (c : Char) : Bool :=
  c == '\n' || c == '\r' || c == Char.ofNat 0x2028 || c == Char.ofNat 0x2029

/-- JS `String.prototype.trim`: strip leading and trailing whitespace. -/
def jsTrim (s : Str) : Str :=
  ((s.dropWhile isJsWhitespace).reverse.dropWhile isJsWhitespace).reverse

/-- Accumulate the value of the maximal decimal-digit prefix. -/
def decValAux : Str → Nat → Nat
  | c :: rest, acc =>
      if c.isDigit then decValAux rest (acc * 10 + (c.toNat - '0'.toNat)) else acc
  | [], acc => acc

def hexDigitVal (c : Char) : Option Nat :=
  if c.isDigit then some (c.toNat - '0'.toNat)
  else if 'a' ≤ c ∧ c ≤ 'f' then some (c.toNat - 'a'.toNat + 10)
  else if 'A' ≤ c ∧ c ≤ 'F' then some (c.toNat - 'A'.toNat + 10)
  else none

def hexValAux : Str → Nat → Nat
  | c :: rest, acc =>
      match hexDigitVal c with
      | some d => hexValAux rest (acc * 16 + d)
      | none => acc
  | [], acc => acc

/-- Magnitude part of JS `parseInt` with no radix argument: a leading `0x`/`0X`
selects hexadecimal, otherwise decimal; `none` when no digit follows. -/
def parseIntCore : Str → Option Nat
  | '0' :: 'x' :: r => match r with
      | c :: _ => if (hexDigitVal c).isSome then some (hexValAux r 0) else none
      | [] => none
  | '0' :: 'X' :: r => match r with
      | c :: _ => if (hexDigitVal c).isSome then some (hexValAux r 0) else none
      | [] => none
  | c :: rest =>
      if c.isDigit then some (decValAux (c :: rest) 0) else none
  | [] => none

/-- JS `parseInt(s)`: skip leading whitespace, optional sign, then the maximal
digit prefix; `none` models `NaN`. -/
def parseIntJS (s : Str) : Option Int :=
  match s.dropWhile isJsWhitespace with
  | '-' :: r => (parseIntCore r).map (fun n => -(n : Int))
  | '+' :: r => (parseIntCore r).map (fun n => (n : Int))
  | r => (parseIntCore r).map (fun n => (n : Int))

def natToCharsAux : Nat → Nat → Str
  | 0, _ => []
  | fuel + 1, n =>
      if n < 10 then [Char.ofNat ('0'.toNat + n)]
      else natToCharsAux fuel (n / 10) ++ [Char.ofNat ('0'.toNat + n % 10)]

/-- Decimal digits of a natural number, most significant first (the fuel
`n + 1` always suffices, and keeps the recursion structural). -/
def natToChars (n : Nat) : Str := natToCharsAux (n + 1) n

/-- JS `Number.prototype.toString` on an integer value. -/
def intToChars (v : Int) : Str :=
  if v < 0 then '-' :: natToChars (-v).toNat else natToChars v.toNat

/-! ## Data model (src/types.ts) -/

structure TabNote where
  fret : Str
deriving DecidableEq, Repr

/-- A time column: six cells, one per string, empty cells `none`. -/
abbrev TabColumn := List (Option TabNote)

structure TabBlock where
  id : Nat
  columns : List TabColumn
  cursorPosition : Nat
  title : Str
deriving DecidableEq, Repr

abbrev Doc := List TabBlock

def INITIAL_COLS : Nat := 40
def HISTORY_LIMIT : Nat := 15

def emptyColumn : TabColumn := List.replicate 6 none

/-- A freshly created block: `crypto.randomUUID()` is modelled by an explicit
fresh-identifier argument; identifiers are observed by no claim. -/
def mkEmptyBlock (freshId : Nat) : TabBlock :=
  { id := freshId
    columns := List.replicate INITIAL_COLS emptyColumn
    cursorPosition := 0
    title := [] }

/-! ## Application state (the `useState` hooks of `App`) -/

structure AppState where
  blocks : Doc
  activeBlockIndex : Nat
  lastStringIndex : Nat
  selection : Option (Nat × Nat)
  clipboard : Option (List TabColumn)
  history : List Doc
  redoStack : List Doc
deriving DecidableEq, Repr

def initState (freshId : Nat) : AppState :=
  { blocks := [mkEmptyBlock freshId]
    activeBlockIndex := 0
    lastStringIndex := 0
    selection := none
    clipboard := none
    history := []
    redoStack := [] }

/-- The history update inside `saveState`: append the snapshot, then evict the
oldest entry when the stack exceeds `HISTORY_LIMIT` (`next.slice(1)`). -/
def pushHistory (h : List Doc) (b : Doc) : List Doc :=
  let next := h ++ [b]
  if HISTORY_LIMIT < next.length then next.drop 1 else next

/-- `saveState(blocks)`: every call site passes the current `blocks`; pushes it
onto the undo stack and clears the redo stack. -/
def saveState (st : AppState) : AppState :=
  { st with history := pushHistory st.history st.blocks, redoStack := [] }

/-- `handleUndo`: no-op on an empty stack; otherwise push the current document
onto redo, restore the most recent snapshot, and clamp the active index. -/
def handleUndo (st : AppState) : AppState :=
  match st.history.getLast? with
  | none => st
  | some restored =>
      { st with
        redoStack := st.redoStack ++ [st.blocks]
        blocks := restored
        history := st.history.dropLast
        activeBlockIndex :=
          if restored.length ≤ st.activeBlockIndex then restored.length - 1
          else st.activeBlockIndex }

/-- `handleRedo`: symmetric to undo, but with no clamp of the active index. -/
def handleRedo (st : AppState) : AppState :=
  match st.redoStack.getLast? with
  | none => st
  | some nextState =>
      { st with
        history := st.history ++ [st.blocks]
        blocks := nextState
        redoStack := st.redoStack.dropLast }

/-- `updateActiveBlock`: `saveState(blocks)` first, then replace the active
block with the updater's result. `none` models the `TypeError` raised when the
updater dereferences an out-of-range (`undefined`) block. -/
def updateActiveBlock (st : AppState) (updater : TabBlock → Option TabBlock) :
    Option AppState :=
  (st.blocks.get? st.activeBlockIndex).bind fun b =>
    (updater b).map fun b' =>
      { saveState st with blocks := st.blocks.set st.activeBlockIndex b' }

/-- `handleTitleChange`: mutates the block title directly, with no `saveState`.
The UI only invokes it with indices of rendered blocks, so the out-of-range
branch is never exercised. -/
def handleTitleChange (index : Nat) (newTitle : Str) (st : AppState) : AppState :=
  match st.blocks.get? index with
  | none => st
  | some b => { st with blocks := st.blocks.set index { b with title := newTitle } }

/-! ## Block editing operations -/

/-- The updater of `addNote`: grow by one empty column when
`cursorPosition >= columns.length - 1` (JS integer arithmetic, rendered in Nat
as `cursorPosition + 1 ≥ length`), then write the note at (cursor, string).
`none` models the `TypeError` when the cursor still lies past the end. -/
def addNoteBlock (stringIndex : Nat) (fretValue : Str) (autoAdvance : Bool)
    (block : TabBlock) : Option TabBlock :=
  let cols1 :=
    if block.columns.length ≤ block.cursorPosition + 1 then
      block.columns ++ [emptyColumn]
    else block.columns
  match cols1.get? block.cursorPosition with
  | none => none
  | some col =>
      some { block with
        columns := cols1.set block.cursorPosition (col.set stringIndex (some ⟨fretValue⟩))
        cursorPosition :=
          if autoAdvance then block.cursorPosition + 1 else block.cursorPosition }

/-- `addNote` at app level: record the string index, then `updateActiveBlock`. -/
def addNoteApp (stringIndex : Nat) (fretValue : Str) (autoAdvance : Bool)
    (st : AppState) : Option AppState :=
  updateActiveBlock { st with lastStringIndex := stringIndex }
    (addNoteBlock stringIndex fretValue autoAdvance)

/-- The updater of `insertBarLine`: same lazy growth, then overwrite the whole
cursor column with bar-line notes and advance. The guard mirrors the in-range
JS assignment; past-the-end cursors would create a sparse JS array, a state no
claim reaches or observes. -/
def insertBarLineBlock (block : TabBlock) : Option TabBlock :=
  let cols1 :=
    if block.columns.length ≤ block.cursorPosition + 1 then
      block.columns ++ [emptyColumn]
    else block.columns
  if block.cursorPosition < cols1.length then
    some { block with
      columns := cols1.set block.cursorPosition (List.replicate 6 (some ⟨['|']⟩))
      cursorPosition := block.cursorPosition + 1 }
  else none

def insertBarLineApp (st : AppState) : Option AppState :=
  updateActiveBlock st insertBarLineBlock

/-- The updater of `insertSpace`: splice one empty column at the selection
start when a selection exists, else at the cursor; the cursor advances only
when no selection anchors the insertion. -/
def insertSpaceBlock (selection : Option (Nat × Nat)) (block : TabBlock) : TabBlock :=
  let insertPos := match selection with
    | some s => s.1
    | none => block.cursorPosition
  { block with
    columns := block.columns.take insertPos ++ [emptyColumn] ++ block.columns.drop insertPos
    cursorPosition :=
      match selection with
      | some _ => block.cursorPosition
      | none => block.cursorPosition + 1 }

def insertSpaceApp (st : AppState) : Option AppState :=
  updateActiveBlock st (fun b => some (insertSpaceBlock st.selection b))

/-- `handleCopy`: deep-copy `columns.slice(start, end + 1)` into the clipboard
(value semantics already give independence). -/
def handleCopy (st : AppState) : Option AppState :=
  match st.selection with
  | none => some st
  | some (s0, s1) =>
      match st.blocks.get? st.activeBlockIndex with
      | none => none
      | some b => some { st with clipboard := some ((b.columns.drop s0).take (s1 + 1 - s0)) }

/-- The range-clearing loop of `handleCut`: `newCols[i] = Array(6).fill(null)`
for `i` in `[s0, s1]`. Selections come from drags over rendered columns, so
the indices are in range. -/
def clearRange (s0 s1 : Nat) (cols : List TabColumn) : List TabColumn :=
  (List.range (s1 + 1 - s0)).foldl (fun cs j => cs.set (s0 + j) emptyColumn) cols

/-- `handleCut`: no-op without a selection; else copy, clear the range through
`updateActiveBlock`, and drop the selection. -/
def handleCut (st : AppState) : Option AppState :=
  match st.selection with
  | none => some st
  | some (s0, s1) =>
      (handleCopy st).bind fun st1 =>
        (updateActiveBlock st1
            (fun b => some { b with columns := clearRange s0 s1 b.columns })).map
          fun st2 => { st2 with selection := none }

/-- `handlePaste`: no-op without a clipboard; else splice the clipboard at the
cursor, advance by its length, and drop the selection. -/
def handlePaste (st : AppState) : Option AppState :=
  match st.clipboard with
  | none => some st
  | some cb =>
      (updateActiveBlock st (fun b => some { b with
          columns := b.columns.take b.cursorPosition ++ cb ++ b.columns.drop b.cursorPosition
          cursorPosition := b.cursorPosition + cb.length })).map
        fun st1 => { st1 with selection := none }

/-! ## Transposition -/

/-- The `canTranspose` scan: `false` as soon as some cell parses as an integer
whose shifted value would be negative. -/
def canTranspose (delta : Int) (blocks : Doc) : Bool :=
  blocks.all fun b => b.columns.all fun col => col.all fun cell =>
    match cell with
    | none => true
    | some n =>
        match parseIntJS n.fret with
        | none => true
        | some v => decide (0 ≤ v + delta)

def shiftNote (delta : Int) (n : TabNote) : TabNote :=
  match parseIntJS n.fret with
  | none => n
  | some v => { n with fret := intToChars (v + delta) }

/-- `transpose(delta)`: when rejected, `alert` and return with no mutation (the
Boolean records that the user-facing error was shown); otherwise snapshot and
shift every integer-parsing cell in every block. -/
def transposeApp (delta : Int) (st : AppState) : AppState × Bool :=
  if canTranspose delta st.blocks then
    ({ saveState st with
        blocks := st.blocks.map fun b =>
          { b with columns := b.columns.map fun col => col.map (Option.map (shiftNote delta)) } },
      false)
  else (st, true)

/-! ## Document (multi-block) operations -/

/-- `addBlockBelow`: snapshot, insert a fresh empty block after the active one
(`splice(active + 1, 0, ...)`, which clamps like take/drop), make it active. -/
def addBlockBelow (freshId : Nat) (st : AppState) : AppState :=
  let st1 := saveState st
  { st1 with
    blocks := st.blocks.take (st.activeBlockIndex + 1) ++ [mkEmptyBlock freshId] ++
      st.blocks.drop (st.activeBlockIndex + 1)
    activeBlockIndex := st.activeBlockIndex + 1 }

/-- `duplicateBlock(index)`: snapshot, deep-copy the block with a fresh id and
a `" (Cópia)"` title suffix when the title is non-empty, insert after `index`,
make the copy active. `none` models the dereference of an absent block. -/
def duplicateBlock (freshId : Nat) (index : Nat) (st : AppState) : Option AppState :=
  match st.blocks.get? index with
  | none => none
  | some b =>
      let st1 := saveState st
      let newBlock : TabBlock :=
        { b with
          id := freshId
          title := if b.title = [] then [] else b.title ++ (" (Cópia)".data) }
      some { st1 with
        blocks := st.blocks.take (index + 1) ++ [newBlock] ++ st.blocks.drop (index + 1)
        activeBlockIndex := index + 1 }

/-- `moveBlock(index, direction)`: no-op at the boundary; otherwise snapshot
and swap with the neighbour, keeping the moved block active. Callers pass only
rendered indices, so both positions exist. -/
def moveBlock (index : Nat) (up : Bool) (st : AppState) : Option AppState :=
  if (up ∧ index = 0) ∨ (¬up ∧ index + 1 = st.blocks.length) then some st
  else
    let target := if up then index - 1 else index + 1
    match st.blocks.get? index, st.blocks.get? target with
    | some a, some b =>
        some { saveState st with
          blocks := (st.blocks.set index b).set target a
          activeBlockIndex := target }
    | _, _ => none

/-- `removeSelectedBlock`: rejected with a single block; otherwise, on a
confirmed dialog, snapshot, drop the active block and re-focus to
`max(0, active - 1)` (Nat subtraction). -/
def removeSelectedBlock (confirmed : Bool) (st : AppState) : AppState :=
  if st.blocks.length ≤ 1 then st
  else if confirmed then
    { saveState st with
      blocks := st.blocks.eraseIdx st.activeBlockIndex
      activeBlockIndex := st.activeBlockIndex - 1 }
  else st

/-- `handleClearAll`: on a confirmed dialog, snapshot and replace the document
with a single fresh block. -/
def handleClearAll (confirmed : Bool) (freshId : Nat) (st : AppState) : AppState :=
  if confirmed then
    { saveState st with
      blocks := [mkEmptyBlock freshId]
      activeBlockIndex := 0
      selection := none }
  else st

/-- `setActiveBlockIndex` from a block click: the UI renders one click target
per existing block, so only in-range indices arrive. -/
def selectBlock (index : Nat) (st : AppState) : AppState :=
  if index < st.blocks.length then { st with activeBlockIndex := index } else st

def cursorLeftApp (st : AppState) : Option AppState :=
  updateActiveBlock st (fun b => some { b with cursorPosition := b.cursorPosition - 1 })

def cursorRightApp (st : AppState) : Option AppState :=
  updateActiveBlock st (fun b => some { b with cursorPosition := b.cursorPosition + 1 })

/-! ## Text codec (exportTab / handleImport) -/

/-- `Parte`, the block-header marker. -/
def parteMarker : Str := "Parte".data

/-- `Título:`, the block-title marker. -/
def tituloMarker : Str := "Título:".data

/-- Modelled from the spec: `STRING_NAMES` lives in `constants.ts`, which this
repository snapshot does not contain; the spec fixes the order e,B,G,D,A,E,
matching the import regex class `[eBGDAE]`. -/
def STRING_NAMES : List Char := ['e', 'B', 'G', 'D', 'A', 'E']

/-- `String.prototype.startsWith`. -/
def beginsWith : Str → Str → Bool
  | [], _ => true
  | _ :: _, [] => false
  | p :: ps, c :: cs => p == c && beginsWith ps cs

/-- One exported cell: the note label padded to width 2 with `-`
(`note.fret.padEnd(2, '-')`), or `--` for an empty cell. -/
def padCell (cell : Option TabNote) : Str :=
  match cell with
  | none => ['-', '-']
  | some n => n.fret ++ List.replicate (2 - n.fret.length) '-'

/-- The cell text of one exported string row. -/
def cellsOf (s : Nat) (cols : List TabColumn) : Str :=
  (cols.map fun col => padCell (col.getD s none)).flatten

/-- One exported string row: `` `${STRING_NAMES[s]} |` `` followed by each
column's cell at string `s`. -/
def rowLine (s : Nat) (cols : List TabColumn) : Str :=
  STRING_NAMES.getD s ' ' :: ' ' :: '|' :: cellsOf s cols

/-- The `Parte n` header line of one exported block. -/
def parteLine (n : Nat) : Str := parteMarker ++ (' ' :: natToChars n)

/-- The optional title line of one exported block. -/
def tituloLine (t : Str) : Str := tituloMarker ++ (' ' :: t)

/-- The exported lines of one block: `Parte n`, the optional title line, the
six string rows, and the blank separator. -/
def blockLines (n : Nat) (b : TabBlock) : List Str :=
  parteLine n ::
    ((if b.title = [] then [] else [tituloLine b.title]) ++
      (List.range 6).map (fun s => rowLine s b.columns) ++ [[]])

def blocksLines : Nat → List TabBlock → List Str
  | _, [] => []
  | i, b :: rest => blockLines (i + 1) b ++ blocksLines (i + 1) rest

/-- All exported lines: the preamble, a blank line, then every block. -/
def exportLines (blocks : List TabBlock) : List Str :=
  ("Hunter Tab Maker - Composição".data) :: [] :: blocksLines 0 blocks

/-- `exportTab` as the text written to the downloaded file: every line is
terminated by `\n`. -/
def exportTab (blocks : List TabBlock) : Str :=
  ((exportLines blocks).map (fun l => l ++ ['\n'])).flatten

/-- `content.split('\n')`. -/
def splitLines : Str → List Str
  | [] => [[]]
  | c :: rest =>
      if c = '\n' then [] :: splitLines rest
      else
        match splitLines rest with
        | [] => [[c]]
        | l :: ls => (c :: l) :: ls

/-- The row regex `^([eBGDAE])\s\|\s*(.*)$`: a string letter, one whitespace,
a bar, then greedily skipped whitespace; the captured remainder must contain
no line terminator (JS `.` excludes them, and backtracking cannot help).
Returns `STRING_NAMES.indexOf(letter)` and the captured content. -/
def matchRow (line : Str) : Option (Nat × Str) :=
  match line with
  | c1 :: c2 :: c3 :: rest =>
      if (STRING_NAMES.contains c1 && isJsWhitespace c2 && c3 == '|') = true then
        let content := rest.dropWhile isJsWhitespace
        if content.all (fun c => !isLineTerm c) then
          some (STRING_NAMES.findIdx (· == c1), content)
        else none
      else none
  | _ => none

/-- The 2-character chunks `tabContent.substring(c*2, c*2+2)` for
`c < floor(length / 2)`. -/
def chunksOf2 : Str → List Str
  | a :: b :: rest => [a, b] :: chunksOf2 rest
  | _ => []

/-- Chunk clean-up on import: trim the chunk, then delete every `-` (the
globally-flagged dash replace). -/
def cleanChunk (chunk : Str) : Str :=
  (jsTrim chunk).filter (fun c => c ≠ '-')

/-- The per-row column loop: chunk `c` pairs with column `c`; a non-empty
cleaned chunk is written at string `sIdx`, an empty one is skipped. A
non-empty chunk with no column left is the `TypeError` on
`currentPartCols[c][stringIdx]` (`undefined` element), modelled as `none`. -/
def applyRow (sIdx : Nat) : List Str → List TabColumn → Option (List TabColumn)
  | [], cols => some cols
  | ch :: chs, [] =>
      if cleanChunk ch = [] then applyRow sIdx chs [] else none
  | ch :: chs, col :: cs =>
      let col' :=
        if cleanChunk ch = [] then col else col.set sIdx (some ⟨cleanChunk ch⟩)
      (applyRow sIdx chs cs).map (fun cs' => col' :: cs')

/-- Parser accumulator: `aliased` records that `currentPartCols` is still the
same JS array as the columns of the block pushed for the current `Parte`
group, so writes from surplus string rows are visible in that block. -/
structure ParseSt where
  newBlocks : List TabBlock
  currentPartCols : List TabColumn
  currentTitle : Str
  stringsFound : Nat
  nextId : Nat
  aliased : Bool
deriving DecidableEq, Repr

def initParseSt (nextId : Nat) : ParseSt :=
  { newBlocks := [], currentPartCols := [], currentTitle := []
    stringsFound := 0, nextId := nextId, aliased := false }

/-- Process one line of the imported file, mirroring the body of the
`for` loop in `reader.onload`. -/
def processLine (ps : ParseSt) (line : Str) : Option ParseSt :=
  let ps1 :=
    if beginsWith parteMarker line then
      { ps with stringsFound := 0, currentPartCols := [], currentTitle := []
                aliased := false }
    else ps
  let ps2 :=
    if beginsWith tituloMarker line then
      { ps1 with currentTitle := jsTrim (line.drop tituloMarker.length) }
    else ps1
  match matchRow line with
  | none => some ps2
  | some (stringIdx, content) =>
      let chunks := chunksOf2 content
      let cols0 :=
        if ps2.currentPartCols.length = 0 then
          List.replicate chunks.length emptyColumn
        else ps2.currentPartCols
      let aliased0 :=
        if ps2.currentPartCols.length = 0 then false else ps2.aliased
      match applyRow stringIdx chunks cols0 with
      | none => none
      | some cols1 =>
          let found := ps2.stringsFound + 1
          if found = 6 then
            some { ps2 with
              newBlocks := ps2.newBlocks ++
                [{ id := ps2.nextId, columns := cols1, cursorPosition := 0
                   title := ps2.currentTitle }]
              currentPartCols := cols1
              stringsFound := found
              nextId := ps2.nextId + 1
              aliased := true }
          else if aliased0 then
            some { ps2 with
              newBlocks := ps2.newBlocks.dropLast ++
                ((ps2.newBlocks.getLast?.map fun b =>
                  [{ b with columns := cols1 }]).getD [])
              currentPartCols := cols1
              stringsFound := found
              aliased := true }
          else
            some { ps2 with
              currentPartCols := cols1
              stringsFound := found
              aliased := aliased0 }

def processLines : ParseSt → List Str → Option ParseSt
  | ps, [] => some ps
  | ps, l :: ls =>
      match processLine ps l with
      | none => none
      | some ps' => processLines ps' ls

/-- The blocks parsed from an imported file's content; `none` is an uncaught
`TypeError` inside `reader.onload`. Fresh block ids are drawn from `nextId`
upward (modelling `crypto.randomUUID()`). -/
def importBlocks (nextId : Nat) (content : Str) : Option (List TabBlock) :=
  (processLines (initParseSt nextId) (splitLines content)).map (·.newBlocks)

/-- `handleImport` after the file is read: on at least one parsed block,
snapshot and install the parsed document with active index 0; on zero blocks,
`alert` and leave the state untouched. -/
def handleImportApp (nextId : Nat) (content : Str) (st : AppState) :
    Option AppState :=
  match importBlocks nextId content with
  | none => none
  | some bs =>
      if bs = [] then some st
      else some { saveState st with blocks := bs, activeBlockIndex := 0 }

/-! ## UI events -/

/-- The user-triggerable events that reach the document model, with dialog
answers and fresh identifiers made explicit. -/
inductive Action where
  | note (stringIndex : Nat) (fretValue : Str) (autoAdvance : Bool)
  | barLine
  | space
  | cut
  | paste
  | transposeBy (delta : Int)
  | addBelow (freshId : Nat)
  | duplicate (freshId : Nat) (index : Nat)
  | move (index : Nat) (up : Bool)
  | removeActive (confirmed : Bool)
  | clearAll (confirmed : Bool) (freshId : Nat)
  | titleChange (index : Nat) (newTitle : Str)
  | cursorLeft
  | cursorRight
  | selBlock (index : Nat)
  | setSelection (sel : Option (Nat × Nat))
  | importFile (nextId : Nat) (content : Str)
  | undo
  | redo
deriving DecidableEq, Repr

def apply (st : AppState) : Action → Option AppState
  | .note s f adv => addNoteApp s f adv st
  | .barLine => insertBarLineApp st
  | .space => insertSpaceApp st
  | .cut => handleCut st
  | .paste => handlePaste st
  | .transposeBy d => some (transposeApp d st).1
  | .addBelow freshId => some (addBlockBelow freshId st)
  | .duplicate freshId index => duplicateBlock freshId index st
  | .move index up => moveBlock index up st
  | .removeActive confirmed => some (removeSelectedBlock confirmed st)
  | .clearAll confirmed freshId => some (handleClearAll confirmed freshId st)
  | .titleChange index t => some (handleTitleChange index t st)
  | .cursorLeft => cursorLeftApp st
  | .cursorRight => cursorRightApp st
  | .selBlock index => some (selectBlock index st)
  | .setSelection sel => some { st with selection := sel }
  | .importFile nextId content => handleImportApp nextId content st
  | .undo => some (handleUndo st)
  | .redo => some (handleRedo st)

/-- The operations the spec calls state-mutating: note entry, bar-line and
space insertion, cut, paste, transposition, the block operations, clear-all
and title editing (plus the snapshotting cursor moves). -/
def Action.isEditOp : Action → Bool
  | .note _ _ _ | .barLine | .space | .cut | .paste | .transposeBy _
  | .addBelow _ | .duplicate _ _ | .move _ _ | .removeActive _
  | .clearAll _ _ | .titleChange _ _ | .cursorLeft | .cursorRight => true
  | _ => false

def iterate (f : AppState → AppState) : Nat → AppState → AppState
  | 0, st => st
  | n + 1, st => iterate f n (f st)

/-! ## History lemmas -/

theorem pushHistory_foldl (snaps : List Doc) :
    ∀ h : List Doc, h.length ≤ HISTORY_LIMIT →
      List.foldl pushHistory h snaps =
        (h ++ snaps).drop (h.length + snaps.length - HISTORY_LIMIT) := by
  induction snaps with
  | nil =>
      intro h hle
      simp only [List.foldl_nil, List.append_nil, List.length_nil, Nat.add_zero]
      rw [Nat.sub_eq_zero_of_le hle, List.drop_zero]
  | cons s rest ih =>
      intro h hle
      simp only [List.foldl_cons]
      have hps : pushHistory h s =
          if HISTORY_LIMIT < h.length + 1 then (h ++ [s]).drop 1 else h ++ [s] := by
        simp [pushHistory]
      by_cases hfull : HISTORY_LIMIT < h.length + 1
      · have hlen15 : h.length = HISTORY_LIMIT := by omega
        rw [hps, if_pos hfull]
        have hlen' : ((h ++ [s]).drop 1).length ≤ HISTORY_LIMIT := by
          simp [hlen15]
        rw [ih _ hlen']
        have hdl : ((h ++ [s]).drop 1).length = HISTORY_LIMIT := by simp [hlen15]
        rw [hdl]
        have h1 : (h ++ [s]).drop 1 ++ rest = (h ++ s :: rest).drop 1 := by
          cases h with
          | nil => simp [HISTORY_LIMIT] at hlen15
          | cons a t => simp
        rw [h1, List.drop_drop]
        congr 1
        simp [hlen15]
        omega
      · rw [hps, if_neg hfull]
        have hlen' : (h ++ [s]).length ≤ HISTORY_LIMIT := by
          simp; omega
        rw [ih _ hlen']
        simp only [List.append_assoc, List.singleton_append, List.length_append,
          List.length_cons, List.length_nil]
        congr 1
        omega

/-- Claim C6: the undo stack is bounded by the configured depth 15; after
`HISTORY_LIMIT + k` snapshot-recording calls (k > 0) starting from an empty
stack, the stack holds exactly `HISTORY_LIMIT` entries and the `k` oldest
snapshots have been evicted oldest-first, never the new snapshot rejected. -/
theorem history_bound (snaps : List Doc) (k : Nat) (hk : 0 < k)
    (hlen : snaps.length = HISTORY_LIMIT + k) :
    List.foldl pushHistory [] snaps = snaps.drop k ∧
    (List.foldl pushHistory [] snaps).length = HISTORY_LIMIT ∧
    ∀ pre : List Doc, (List.foldl pushHistory [] pre).length ≤ HISTORY_LIMIT := by
  have hmain := pushHistory_foldl snaps [] (by simp [HISTORY_LIMIT])
  simp only [List.nil_append, List.length_nil, Nat.zero_add] at hmain
  rw [hlen] at hmain
  have hk' : HISTORY_LIMIT + k - HISTORY_LIMIT = k := by omega
  rw [hk'] at hmain
  refine ⟨hmain, ?_, ?_⟩
  · rw [hmain, List.length_drop, hlen]
    omega
  · intro pre
    have h2 := pushHistory_foldl pre [] (by simp [HISTORY_LIMIT])
    simp only [List.nil_append, List.length_nil, Nat.zero_add] at h2
    rw [h2, List.length_drop]
    omega

theorem history_bound_witness :
    List.foldl pushHistory [] (List.replicate (HISTORY_LIMIT + 1) ([] : Doc)) =
      (List.replicate (HISTORY_LIMIT + 1) ([] : Doc)).drop 1 ∧
    (List.foldl pushHistory [] (List.replicate (HISTORY_LIMIT + 1) ([] : Doc))).length =
      HISTORY_LIMIT := by
  have h := history_bound (List.replicate (HISTORY_LIMIT + 1) ([] : Doc)) 1
    (by decide) (by simp)
  exact ⟨h.1, h.2.1⟩

/-! ## Undo/redo iteration lemmas -/

/-- The documents that `n` successive pops push onto the opposite stack:
first the current document, then all but the oldest popped entry, newest
first. -/
def popTrace (cur : Doc) : List Doc → List Doc
  | [] => []
  | _ :: t => cur :: t.reverse

theorem headD_concat (l : List Doc) (b : Doc) (d : Doc) :
    (l ++ [b]).headD d = l.headD b := by
  cases l <;> simp

theorem popTrace_concat (cur : Doc) (l : List Doc) (b : Doc) :
    (cur :: popTrace b l) = popTrace cur (l ++ [b]) := by
  cases l <;> simp [popTrace]

theorem iterate_undo_spec (rest : List Doc) :
    ∀ (st : AppState) (h : List Doc), st.history = h ++ rest →
      ∃ α, iterate handleUndo rest.length st =
        { st with
          blocks := rest.headD st.blocks
          history := h
          redoStack := st.redoStack ++ popTrace st.blocks rest
          activeBlockIndex := α } := by
  induction rest using List.reverseRecOn with
  | nil =>
      intro st h hh
      refine ⟨st.activeBlockIndex, ?_⟩
      simp only [List.append_nil] at hh
      simp [iterate, popTrace, ← hh]
  | append_singleton rest' b ih =>
      intro st h hh
      have hlen : (rest' ++ [b]).length = rest'.length + 1 := by simp
      rw [hlen]
      have hlast : st.history.getLast? = some b := by
        rw [hh, ← List.append_assoc, List.getLast?_concat]
      have hstep : iterate handleUndo (rest'.length + 1) st =
          iterate handleUndo rest'.length (handleUndo st) := rfl
      have hundo : handleUndo st =
          { st with
            redoStack := st.redoStack ++ [st.blocks]
            blocks := b
            history := h ++ rest'
            activeBlockIndex :=
              if b.length ≤ st.activeBlockIndex then b.length - 1
              else st.activeBlockIndex } := by
        rw [handleUndo, hlast]
        have : st.history.dropLast = h ++ rest' := by
          rw [hh, ← List.append_assoc, List.dropLast_concat]
        rw [this]
      obtain ⟨α, hα⟩ := ih (handleUndo st) h (by rw [hundo])
      refine ⟨α, ?_⟩
      rw [hstep, hα, hundo]
      simp only [headD_concat]
      congr 1
      rw [List.append_assoc]
      congr 1
      exact popTrace_concat st.blocks rest' b

theorem iterate_redo_spec (q : List Doc) :
    ∀ (st : AppState) (r : List Doc), st.redoStack = r ++ q →
      iterate handleRedo q.length st =
        { st with
          blocks := q.headD st.blocks
          redoStack := r
          history := st.history ++ popTrace st.blocks q } := by
  induction q using List.reverseRecOn with
  | nil =>
      intro st r hr
      simp only [List.append_nil] at hr
      simp [iterate, popTrace, ← hr]
  | append_singleton q' b ih =>
      intro st r hr
      have hlen : (q' ++ [b]).length = q'.length + 1 := by simp
      rw [hlen]
      have hlast : st.redoStack.getLast? = some b := by
        rw [hr, ← List.append_assoc, List.getLast?_concat]
      have hstep : iterate handleRedo (q'.length + 1) st =
          iterate handleRedo q'.length (handleRedo st) := rfl
      have hredo : handleRedo st =
          { st with
            history := st.history ++ [st.blocks]
            blocks := b
            redoStack := r ++ q' } := by
        rw [handleRedo, hlast]
        have : st.redoStack.dropLast = r ++ q' := by
          rw [hr, ← List.append_assoc, List.dropLast_concat]
        rw [this]
      have hq := ih (handleRedo st) r (by rw [hredo])
      rw [hstep, hq, hredo]
      simp only [headD_concat]
      congr 1
      rw [List.append_assoc]
      congr 1
      exact popTrace_concat st.blocks q' b

/-! ## Snapshot-recording operation chains -/

/-- A run of operations each of which records a snapshot: the step succeeds,
pushes the pre-state document onto the undo stack and clears the redo stack
(the behaviour shared by all mutating operations except title editing). -/
inductive RecordsFrom : AppState → List Action → AppState → Prop
  | nil (st : AppState) : RecordsFrom st [] st
  | cons {st st1 st2 : AppState} {a : Action} {acts : List Action} :
      apply st a = some st1 →
      st1.history = pushHistory st.history st.blocks →
      st1.redoStack = [] →
      RecordsFrom st1 acts st2 →
      RecordsFrom st (a :: acts) st2

theorem pushHistory_shape (h : List Doc) (b : Doc) :
    ∃ h', pushHistory h b = h' ++ [b] := by
  by_cases hfull : HISTORY_LIMIT < h.length + 1
  · refine ⟨h.drop 1, ?_⟩
    simp only [pushHistory]
    rw [if_pos (by simpa using hfull)]
    rw [List.drop_append_of_le_length]
    simp [HISTORY_LIMIT] at hfull
    omega
  · refine ⟨h, ?_⟩
    simp only [pushHistory]
    rw [if_neg (by simpa using hfull)]

theorem records_history : ∀ (acts : List Action) (st stf : AppState)
    (pre snaps : List Doc), RecordsFrom st acts stf →
    st.history = pre ++ snaps → snaps.length + acts.length ≤ HISTORY_LIMIT →
    ∃ pre' mid, stf.history = pre' ++ (snaps ++ mid) ∧ mid.length = acts.length ∧
      (acts ≠ [] → mid.headD stf.blocks = st.blocks ∧ stf.redoStack = []) := by
  intro acts
  induction acts with
  | nil =>
      intro st stf pre snaps hrec hh _
      cases hrec
      exact ⟨pre, [], by simpa using hh, rfl, by simp⟩
  | cons a acts' ih =>
      intro st stf pre snaps hrec hh hle
      cases hrec with
      | cons happ hhist hredo hrec' =>
        rename_i st1
        have hlen : snaps.length + acts'.length + 1 ≤ HISTORY_LIMIT := by
          simp only [List.length_cons] at hle
          omega
        have hst1 : ∃ pre1, st1.history = pre1 ++ (snaps ++ [st.blocks]) := by
          rw [hhist, hh]
          cases pre with
          | nil =>
              refine ⟨[], ?_⟩
              simp only [List.nil_append]
              simp only [pushHistory]
              rw [if_neg (by
                simp only [List.length_append, List.length_cons, List.length_nil, not_lt]
                omega)]
          | cons p ps =>
              by_cases hfull : HISTORY_LIMIT < ((p :: ps ++ snaps) ++ [st.blocks]).length
              · refine ⟨ps, ?_⟩
                simp only [pushHistory]
                rw [if_pos hfull]
                simp
              · refine ⟨p :: ps, ?_⟩
                simp only [pushHistory]
                rw [if_neg hfull]
                simp
        obtain ⟨pre1, hpre1⟩ := hst1
        obtain ⟨pre', mid', hh', hlen', hne'⟩ :=
          ih st1 stf pre1 (snaps ++ [st.blocks]) hrec' hpre1
            (by simp only [List.length_append, List.length_cons, List.length_nil]; omega)
        refine ⟨pre', st.blocks :: mid', ?_, by simp [hlen'], ?_⟩
        · rw [hh']
          simp
        · intro _
          constructor
          · simp
          · cases acts' with
            | nil => cases hrec'; exact hredo
            | cons b bs => exact (hne' (by simp)).2

/-- Claim C2 (amended): undo on an empty undo stack and redo on an empty redo
stack change nothing; and after any sequence of N snapshot-recording mutating
operations (every mutating operation except block-title editing records) with
N at most the history depth, N undos restore the document that preceded the
first mutation and N subsequent redos restore the document that held before
the first undo. -/
theorem undo_redo_inverse :
    (∀ st : AppState, st.history = [] → handleUndo st = st) ∧
    (∀ st : AppState, st.redoStack = [] → handleRedo st = st) ∧
    ∀ (st stf : AppState) (acts : List Action),
      RecordsFrom st acts stf → acts ≠ [] → acts.length ≤ HISTORY_LIMIT →
      (iterate handleUndo acts.length stf).blocks = st.blocks ∧
      (iterate handleRedo acts.length (iterate handleUndo acts.length stf)).blocks
        = stf.blocks := by
  refine ⟨?_, ?_, ?_⟩
  · intro st h
    simp [handleUndo, h]
  · intro st h
    simp [handleRedo, h]
  · intro st stf acts hrec hne hlen
    obtain ⟨pre', mid, hhist, hmidlen, hprops⟩ :=
      records_history acts st stf st.history [] hrec (by simp) (by simpa using hlen)
    obtain ⟨hhead, hredo⟩ := hprops hne
    simp only [List.nil_append] at hhist
    obtain ⟨α, hundo⟩ := iterate_undo_spec mid stf pre' hhist
    rw [← hmidlen]
    rw [hundo]
    constructor
    · exact hhead
    · cases mid with
      | nil =>
          exfalso
          apply hne
          cases acts with
          | nil => rfl
          | cons x xs => simp at hmidlen
      | cons m0 mt =>
          have hq : (({ stf with
              blocks := (m0 :: mt).headD stf.blocks
              history := pre'
              redoStack := stf.redoStack ++ popTrace stf.blocks (m0 :: mt)
              activeBlockIndex := α } : AppState)).redoStack =
              [] ++ (stf.blocks :: mt.reverse) := by
            simp [hredo, popTrace]
          have hr := iterate_redo_spec (stf.blocks :: mt.reverse) _ [] hq
          have hqlen : (stf.blocks :: mt.reverse).length = (m0 :: mt).length := by simp
          rw [← hqlen, hr]
          simp

/-- State reached from the initial document by one cursor advance: the
recorded snapshot sits on the undo stack. -/
def stfW : AppState :=
  { blocks := [{ id := 0, columns := List.replicate INITIAL_COLS emptyColumn,
                 cursorPosition := 1, title := [] }]
    activeBlockIndex := 0
    lastStringIndex := 0
    selection := none
    clipboard := none
    history := [[mkEmptyBlock 0]]
    redoStack := [] }

theorem undo_redo_inverse_cex :
    (handleTitleChange 0 ['t'] (initState 0)).blocks ≠ (initState 0).blocks ∧
    (iterate handleUndo 1 (handleTitleChange 0 ['t'] (initState 0))).blocks ≠
      (initState 0).blocks := by decide

theorem undo_redo_inverse_witness :
    (iterate handleUndo 1 stfW).blocks = (initState 0).blocks ∧
    (iterate handleRedo 1 (iterate handleUndo 1 stfW)).blocks = stfW.blocks := by
  have h := undo_redo_inverse.2.2 (initState 0) stfW [Action.cursorRight]
    (RecordsFrom.cons (by decide) (by decide) (by decide) (RecordsFrom.nil stfW))
    (by decide) (by decide)
  exact h

theorem updateActiveBlock_records (st : AppState) (u : TabBlock → Option TabBlock)
    (st' : AppState) (h : updateActiveBlock st u = some st') :
    st'.history = pushHistory st.history st.blocks ∧ st'.redoStack = [] := by
  simp only [updateActiveBlock, Option.bind_eq_some, Option.map_eq_some'] at h
  obtain ⟨b, _hb, b', _hb', heq⟩ := h
  rw [← heq]
  exact ⟨rfl, rfl⟩

/-- Claim C5 (amended): every state-mutating operation except block-title
editing pushes the full pre-mutation document onto the undo stack (the
snapshot is taken of the state before any mutation) and unconditionally
clears the redo stack; title editing mutates without snapshotting. -/
theorem mutators_snapshot (st st' : AppState) (a : Action)
    (hedit : a.isEditOp = true)
    (hnt : ∀ i t, a ≠ Action.titleChange i t)
    (happ : apply st a = some st')
    (hmut : st'.blocks ≠ st.blocks) :
    st'.history = pushHistory st.history st.blocks ∧ st'.redoStack = [] := by
  cases a with
  | note s f adv =>
      simp only [apply, addNoteApp] at happ
      have h := updateActiveBlock_records _ _ _ happ
      exact h
  | barLine =>
      simp only [apply, insertBarLineApp] at happ
      exact updateActiveBlock_records _ _ _ happ
  | space =>
      simp only [apply, insertSpaceApp] at happ
      exact updateActiveBlock_records _ _ _ happ
  | cut =>
      simp only [apply, handleCut] at happ
      cases hsel : st.selection with
      | none =>
          simp only [hsel, Option.some.injEq] at happ
          subst happ
          exact absurd rfl hmut
      | some p =>
          obtain ⟨s0, s1⟩ := p
          simp only [hsel, Option.bind_eq_some, Option.map_eq_some'] at happ
          obtain ⟨st1, hcopy, st2, hupd, heq⟩ := happ
          simp only [handleCopy, hsel] at hcopy
          cases hget : st.blocks.get? st.activeBlockIndex with
          | none =>
              rw [hget] at hcopy
              exact Option.noConfusion hcopy
          | some b =>
              simp only [hget, Option.some.injEq] at hcopy
              subst hcopy
              have hrec := updateActiveBlock_records _ _ _ hupd
              rw [← heq]
              exact hrec
  | paste =>
      simp only [apply, handlePaste] at happ
      cases hcb : st.clipboard with
      | none =>
          simp only [hcb, Option.some.injEq] at happ
          subst happ
          exact absurd rfl hmut
      | some cb =>
          simp only [hcb, Option.map_eq_some'] at happ
          obtain ⟨st1, hupd, heq⟩ := happ
          have hrec := updateActiveBlock_records _ _ _ hupd
          rw [← heq]
          exact hrec
  | transposeBy d =>
      simp only [apply, transposeApp, Option.some.injEq] at happ
      by_cases hc : canTranspose d st.blocks
      · rw [if_pos hc] at happ
        rw [← happ]
        exact ⟨rfl, rfl⟩
      · rw [if_neg hc] at happ
        exact absurd (by rw [← happ]) hmut
  | addBelow freshId =>
      simp only [apply, addBlockBelow, Option.some.injEq] at happ
      rw [← happ]
      exact ⟨rfl, rfl⟩
  | duplicate freshId index =>
      simp only [apply, duplicateBlock] at happ
      cases hget : st.blocks.get? index with
      | none =>
          rw [hget] at happ
          exact Option.noConfusion happ
      | some b =>
          simp only [hget, Option.some.injEq] at happ
          rw [← happ]
          exact ⟨rfl, rfl⟩
  | move index up =>
      simp only [apply, moveBlock] at happ
      by_cases hb : (up ∧ index = 0) ∨ (¬up ∧ index + 1 = st.blocks.length)
      · rw [if_pos hb] at happ
        simp only [Option.some.injEq] at happ
        subst happ
        exact absurd rfl hmut
      · rw [if_neg hb] at happ
        cases hg1 : st.blocks.get? index with
        | none =>
            rw [hg1] at happ
            exact Option.noConfusion happ
        | some x =>
            cases hg2 : st.blocks.get? (if up then index - 1 else index + 1) with
            | none =>
                rw [hg1, hg2] at happ
                exact Option.noConfusion happ
            | some y =>
                simp only [hg1, hg2, Option.some.injEq] at happ
                rw [← happ]
                exact ⟨rfl, rfl⟩
  | removeActive confirmed =>
      simp only [apply, removeSelectedBlock, Option.some.injEq] at happ
      by_cases h1 : st.blocks.length ≤ 1
      · rw [if_pos h1] at happ
        subst happ
        exact absurd rfl hmut
      · rw [if_neg h1] at happ
        cases confirmed with
        | true =>
            rw [if_pos rfl] at happ
            rw [← happ]
            exact ⟨rfl, rfl⟩
        | false =>
            simp only [Bool.false_eq_true, if_false] at happ
            subst happ
            exact absurd rfl hmut
  | clearAll confirmed freshId =>
      simp only [apply, handleClearAll, Option.some.injEq] at happ
      cases confirmed with
      | true =>
          rw [if_pos rfl] at happ
          rw [← happ]
          exact ⟨rfl, rfl⟩
      | false =>
          simp only [Bool.false_eq_true, if_false] at happ
          subst happ
          exact absurd rfl hmut
  | titleChange i t =>
      exact absurd rfl (hnt i t)
  | cursorLeft =>
      simp only [apply, cursorLeftApp] at happ
      exact updateActiveBlock_records _ _ _ happ
  | cursorRight =>
      simp only [apply, cursorRightApp] at happ
      exact updateActiveBlock_records _ _ _ happ
  | selBlock index => simp [Action.isEditOp] at hedit
  | setSelection sel => simp [Action.isEditOp] at hedit
  | importFile nextId content => simp [Action.isEditOp] at hedit
  | undo => simp [Action.isEditOp] at hedit
  | redo => simp [Action.isEditOp] at hedit

theorem mutators_snapshot_cex :
    apply (initState 0) Action.cursorRight = some stfW ∧
    Action.isEditOp (Action.titleChange 0 ['t']) = true ∧
    (handleTitleChange 0 ['t'] (handleUndo stfW)).blocks ≠ (handleUndo stfW).blocks ∧
    (handleTitleChange 0 ['t'] (handleUndo stfW)).history ≠
      pushHistory (handleUndo stfW).history (handleUndo stfW).blocks ∧
    (handleTitleChange 0 ['t'] (handleUndo stfW)).redoStack ≠ [] := by decide

theorem mutators_snapshot_witness :
    stfW.history = pushHistory (initState 0).history (initState 0).blocks ∧
    stfW.redoStack = [] :=
  mutators_snapshot (initState 0) stfW Action.cursorRight (by decide)
    (by intro i t h; cases h) (by decide) (by decide)

/-! ## Active-index invariant (redo path) -/

def applyAll (st : AppState) : List Action → Option AppState
  | [] => some st
  | a :: rest =>
      match apply st a with
      | none => none
      | some st' => applyAll st' rest

/-- Add a block, remove it (confirmed), undo the removal, select the restored
second block, then redo the removal: every event is a legitimate UI event. -/
def redoIndexTrace : List Action :=
  [Action.addBelow 1, Action.removeActive true, Action.undo,
   Action.selBlock 1, Action.redo]

/-- Claim C7: the trace above drives `handleRedo` into a state with one block
and active index 1, violating the `0 ≤ index < length` invariant, because the
redo handler restores a document without clamping the active index the way
the undo handler does. -/
theorem redo_index_bug :
    (applyAll (initState 0) redoIndexTrace).map
        (fun stf => (stf.blocks.length, stf.activeBlockIndex)) = some (1, 1) ∧
    ∀ stf, applyAll (initState 0) redoIndexTrace = some stf →
      ¬ stf.activeBlockIndex < stf.blocks.length := by
  constructor
  · decide
  · intro stf h
    have h2 : (applyAll (initState 0) redoIndexTrace).map
        (fun stf => (stf.blocks.length, stf.activeBlockIndex)) = some (1, 1) := by decide
    rw [h] at h2
    simp only [Option.map_some', Option.some.injEq, Prod.mk.injEq] at h2
    omega

/-! ## Import crash (ragged rows) -/

/-- A file whose second string row is longer than the column count
established by the first: the write at the out-of-range column dereferences
`undefined`. -/
def raggedInput : Str := "e |3-\nB |3-3-".data

/-- Claim C8: the importer is not exception-free — on `raggedInput` the parse
loop raises a `TypeError` (modelled by `none`) instead of reporting an
invalid file. -/
theorem import_crash :
    importBlocks 0 raggedInput = none ∧
    handleImportApp 0 raggedInput (initState 0) = none := by decide

/-! ## Note insertion (addNote) -/

/-- Claim C9 (amended): `addNote` writes the label at (cursor, string) and
appends exactly one empty column if and only if the cursor is at or past
`columns.length - 1` — i.e. already when the cursor sits on the last existing
column, not only when it is past the end. -/
theorem addNote_insert (block : TabBlock) (s : Nat) (f : Str) (adv : Bool)
    (hcur : block.cursorPosition ≤ block.columns.length)
    (hs : s < 6)
    (hwf : ∀ col ∈ block.columns, col.length = 6) :
    ∃ b', addNoteBlock s f adv block = some b' ∧
      b'.columns.length =
        (if block.columns.length ≤ block.cursorPosition + 1
          then block.columns.length + 1 else block.columns.length) ∧
      (b'.columns.getD block.cursorPosition []).getD s none = some ⟨f⟩ ∧
      b'.cursorPosition =
        (if adv then block.cursorPosition + 1 else block.cursorPosition) := by
  by_cases hgrow : block.columns.length ≤ block.cursorPosition + 1
  · have hlt : block.cursorPosition < (block.columns ++ [emptyColumn]).length := by
      simp only [List.length_append, List.length_cons, List.length_nil]
      omega
    obtain ⟨col, hcol⟩ : ∃ col,
        (block.columns ++ [emptyColumn]).get? block.cursorPosition = some col :=
      List.get?_eq_get hlt ▸ ⟨_, rfl⟩
    have hcl : col.length = 6 := by
      rcases Nat.lt_or_ge block.cursorPosition block.columns.length with hlt' | hge
      · rw [List.get?_append hlt'] at hcol
        exact hwf col (List.get?_mem hcol)
      · have hcc : block.cursorPosition = block.columns.length := by omega
        rw [hcc, List.get?_concat_length] at hcol
        cases hcol
        simp [emptyColumn]
    refine ⟨{ block with
        columns := (block.columns ++ [emptyColumn]).set block.cursorPosition
          (col.set s (some ⟨f⟩))
        cursorPosition :=
          if adv then block.cursorPosition + 1 else block.cursorPosition },
      ?_, ?_, ?_, ?_⟩
    · simp only [addNoteBlock, if_pos hgrow]
      rw [hcol]
    · simp only [List.length_set, List.length_append, List.length_cons,
        List.length_nil, if_pos hgrow]
    · show ((((block.columns ++ [emptyColumn]).set block.cursorPosition
          (col.set s (some ⟨f⟩))).get? block.cursorPosition).getD []).getD s none = some ⟨f⟩
      rw [List.get?_set_eq_of_lt _ (by simpa using hlt)]
      show ((col.set s (some ⟨f⟩)).get? s).getD none = some ⟨f⟩
      rw [List.get?_set_eq_of_lt _ (by omega)]
      rfl
    · rfl
  · have hlt : block.cursorPosition < block.columns.length := by omega
    obtain ⟨col, hcol⟩ : ∃ col, block.columns.get? block.cursorPosition = some col :=
      List.get?_eq_get hlt ▸ ⟨_, rfl⟩
    have hcl : col.length = 6 := hwf col (List.get?_mem hcol)
    refine ⟨{ block with
        columns := block.columns.set block.cursorPosition (col.set s (some ⟨f⟩))
        cursorPosition :=
          if adv then block.cursorPosition + 1 else block.cursorPosition },
      ?_, ?_, ?_, ?_⟩
    · simp only [addNoteBlock, if_neg hgrow]
      rw [hcol]
    · simp only [List.length_set, if_neg hgrow]
    · show (((block.columns.set block.cursorPosition
          (col.set s (some ⟨f⟩))).get? block.cursorPosition).getD []).getD s none = some ⟨f⟩
      rw [List.get?_set_eq_of_lt _ hlt]
      show ((col.set s (some ⟨f⟩)).get? s).getD none = some ⟨f⟩
      rw [List.get?_set_eq_of_lt _ (by omega)]
      rfl
    · rfl

/-- A block with a single column and the cursor on it. -/
def oneColBlock : TabBlock :=
  { id := 0, columns := [emptyColumn], cursorPosition := 0, title := [] }

theorem addNote_insert_cex :
    oneColBlock.cursorPosition < oneColBlock.columns.length ∧
    (addNoteBlock 0 ['3'] true oneColBlock).map (fun b => b.columns.length) =
      some 2 := by decide

theorem addNote_insert_witness :
    ∃ b', addNoteBlock 0 ['3'] true oneColBlock = some b' ∧
      b'.columns.length =
        (if oneColBlock.columns.length ≤ oneColBlock.cursorPosition + 1
          then oneColBlock.columns.length + 1 else oneColBlock.columns.length) ∧
      (b'.columns.getD oneColBlock.cursorPosition []).getD 0 none = some ⟨['3']⟩ ∧
      b'.cursorPosition = (if true then oneColBlock.cursorPosition + 1
        else oneColBlock.cursorPosition) :=
  addNote_insert oneColBlock 0 ['3'] true (by decide) (by decide) (by decide)

/-! ## Transposition spec -/

def cellAt (blocks : Doc) (bi ci si : Nat) : Option TabNote :=
  match blocks.get? bi with
  | none => none
  | some b =>
      match b.columns.get? ci with
      | none => none
      | some col => (col.get? si).getD none

def fretAt (blocks : Doc) (bi ci si : Nat) : Str :=
  match cellAt blocks bi ci si with
  | none => []
  | some n => n.fret

/-- A note occupying some cell of the document. -/
def NoteIn (blocks : Doc) (n : TabNote) : Prop :=
  ∃ b ∈ blocks, ∃ col ∈ b.columns, some n ∈ col

theorem canTranspose_eq_false_iff (delta : Int) (blocks : Doc) :
    canTranspose delta blocks = false ↔
      ∃ n, NoteIn blocks n ∧ ∃ v, parseIntJS n.fret = some v ∧ v + delta < 0 := by
  rw [Bool.eq_false_iff]
  constructor
  · intro hne
    by_contra hno
    apply hne
    simp only [canTranspose, List.all_eq_true]
    intro b hb col hcol cell hcell
    cases cell with
    | none => rfl
    | some n =>
        show (match parseIntJS n.fret with
          | none => true
          | some v => decide (0 ≤ v + delta)) = true
        cases hp : parseIntJS n.fret with
        | none => rfl
        | some v =>
            simp only [decide_eq_true_eq]
            by_contra hneg
            exact hno ⟨n, ⟨b, hb, col, hcol, hcell⟩, v, hp, by omega⟩
  · rintro ⟨n, ⟨b, hb, col, hcol, hcell⟩, v, hp, hneg⟩ hall
    simp only [canTranspose, List.all_eq_true] at hall
    have h1 := hall b hb col hcol (some n) hcell
    simp only [hp, decide_eq_true_eq] at h1
    omega

theorem cellAt_shift (delta : Int) (blocks : Doc) (bi ci si : Nat) :
    cellAt (blocks.map fun b =>
        { b with columns := b.columns.map fun col =>
            col.map (Option.map (shiftNote delta)) }) bi ci si =
      (cellAt blocks bi ci si).map (shiftNote delta) := by
  simp only [cellAt]
  rw [List.get?_map]
  cases blocks.get? bi with
  | none => rfl
  | some b =>
      simp only [Option.map_some']
      rw [List.get?_map]
      cases b.columns.get? ci with
      | none => rfl
      | some col =>
          simp only [Option.map_some']
          rw [List.get?_map]
          cases col.get? si with
          | none => rfl
          | some cell => cases cell <;> rfl

/-- Claim C3: a transpose that would drive any integer-parsing cell negative
is rejected with a user-facing error (the `true` flag) and mutates nothing;
otherwise every integer-parsing label v becomes the decimal string of
v + delta, and cells whose labels do not parse as integers are unchanged in
both cases. -/
theorem transpose_spec (delta : Int) (st : AppState) :
    ((∃ n, NoteIn st.blocks n ∧ ∃ v, parseIntJS n.fret = some v ∧ v + delta < 0) →
      transposeApp delta st = (st, true)) ∧
    ((∀ n, NoteIn st.blocks n → ∀ v, parseIntJS n.fret = some v → 0 ≤ v + delta) →
      (transposeApp delta st).2 = false ∧
      (transposeApp delta st).1.blocks = st.blocks.map fun b =>
        { b with columns := b.columns.map fun col =>
            col.map (Option.map (shiftNote delta)) }) ∧
    (∀ bi ci si, parseIntJS (fretAt st.blocks bi ci si) = none →
      cellAt (transposeApp delta st).1.blocks bi ci si = cellAt st.blocks bi ci si) ∧
    (∀ bi ci si v, parseIntJS (fretAt st.blocks bi ci si) = some v →
      canTranspose delta st.blocks = true →
      fretAt (transposeApp delta st).1.blocks bi ci si = intToChars (v + delta)) := by
  refine ⟨?_, ?_, ?_, ?_⟩
  · intro hex
    have hc : canTranspose delta st.blocks = false :=
      (canTranspose_eq_false_iff delta st.blocks).mpr hex
    simp only [transposeApp, hc, Bool.false_eq_true, if_false]
  · intro hall
    have hc : canTranspose delta st.blocks = true := by
      by_contra hfalse
      obtain ⟨n, hin, v, hp, hneg⟩ :=
        (canTranspose_eq_false_iff delta st.blocks).mp (Bool.eq_false_iff.mpr hfalse)
      have := hall n hin v hp
      omega
    simp only [transposeApp, hc, if_true]
    exact ⟨by trivial, by trivial⟩
  · intro bi ci si hp
    by_cases hc : canTranspose delta st.blocks
    · simp only [transposeApp, hc, if_true]
      rw [cellAt_shift]
      cases hcell : cellAt st.blocks bi ci si with
      | none => rfl
      | some n =>
          have hfn : fretAt st.blocks bi ci si = n.fret := by
            simp [fretAt, hcell]
          rw [hfn] at hp
          simp only [Option.map_some']
          rw [show shiftNote delta n = n by simp [shiftNote, hp]]
    · simp only [transposeApp, hc, Bool.false_eq_true, if_false]
  · intro bi ci si v hp hc
    simp only [transposeApp, hc, if_true]
    show fretAt (st.blocks.map _) bi ci si = _
    simp only [fretAt]
    rw [cellAt_shift]
    cases hcell : cellAt st.blocks bi ci si with
    | none =>
        have hfn : fretAt st.blocks bi ci si = [] := by simp [fretAt, hcell]
        rw [hfn] at hp
        rw [show parseIntJS ([] : Str) = none from rfl] at hp
        exact Option.noConfusion hp
    | some n =>
        have hfn : fretAt st.blocks bi ci si = n.fret := by simp [fretAt, hcell]
        rw [hfn] at hp
        simp only [Option.map_some']
        simp [shiftNote, hp]

def blkNeg : TabBlock :=
  { id := 0, columns := [[some ⟨['0']⟩, none, none, none, none, none]]
    cursorPosition := 0, title := [] }

def stNeg : AppState := { initState 0 with blocks := [blkNeg] }

theorem transpose_spec_witness :
    transposeApp (-1) stNeg = (stNeg, true) ∧
    cellAt (transposeApp 2 stNeg).1.blocks 0 0 1 = cellAt stNeg.blocks 0 0 1 :=
  ⟨(transpose_spec (-1) stNeg).1
      ⟨⟨['0']⟩, ⟨blkNeg, by decide,
        [some ⟨['0']⟩, none, none, none, none, none], by decide, by decide⟩,
        0, by decide, by decide⟩,
    (transpose_spec 2 stNeg).2.2.1 0 0 1 (by decide)⟩

/-! ## Note input resolver (incremental path) -/

/-- Modelled from the spec: the incremental Note Input Resolver of spec §4.1.
The keyboard digit-entry path is code of this repository that is absent from
this snapshot (the src `addNote` receives only discrete fretboard-click and
symbol-button inputs, which overwrite unconditionally); the combination rule
is taken from the spec's words. -/
def isDigitStr (s : Str) : Bool :=
  match s with
  | [c] => c.isDigit
  | _ => false

/-- Modelled from the spec: given the existing cell content and an incoming
incremental label, return the new cell content and whether the cursor
advances. -/
def resolveIncremental (existing : Option Str) (incoming : Str) : Str × Bool :=
  match existing with
  | none => (incoming, false)
  | some e =>
      match parseIntJS e with
      | none => (incoming, false)
      | some v =>
          if 0 ≤ v ∧ isDigitStr incoming = true then
            match parseIntJS (e ++ incoming) with
            | none => (incoming, false)
            | some w => if w ≤ 24 then (e ++ incoming, true) else (incoming, false)
          else (incoming, false)

/-- Claim C4 (spec-modelled): when the existing content parses as a
non-negative integer and a digit arrives, the concatenation is kept with a
cursor advance exactly when its value is at most 24, and otherwise only the
incoming digit is kept with no advance; digits 2 then 4 from an empty cell
give fret 24, while 5 after an existing 2 gives just 5. -/
theorem note_combination :
    (∀ (e d : Str) (v w : Int), parseIntJS e = some v → 0 ≤ v →
      isDigitStr d = true → parseIntJS (e ++ d) = some w →
      (w ≤ 24 → resolveIncremental (some e) d = (e ++ d, true)) ∧
      (24 < w → resolveIncremental (some e) d = (d, false))) ∧
    resolveIncremental none ['2'] = (['2'], false) ∧
    resolveIncremental (some ['2']) ['4'] = (['2', '4'], true) ∧
    resolveIncremental (some ['2']) ['5'] = (['5'], false) := by
  refine ⟨?_, by decide, by decide, by decide⟩
  intro e d v w hv hnn hd hw
  constructor
  · intro hle
    simp only [resolveIncremental, hv, hw]
    rw [if_pos ⟨hnn, hd⟩, if_pos hle]
  · intro hgt
    simp only [resolveIncremental, hv, hw]
    rw [if_pos ⟨hnn, hd⟩, if_neg (by omega)]

theorem note_combination_witness :
    resolveIncremental (some ['1']) ['0'] = (['1', '0'], true) :=
  (note_combination.1 ['1'] ['0'] 1 10 (by decide) (by decide) (by decide)
    (by decide)).1 (by decide)

/-! ## Import snapshot and undo -/

theorem pushHistory_getLast? (h : List Doc) (b : Doc) :
    (pushHistory h b).getLast? = some b := by
  obtain ⟨h', hh⟩ := pushHistory_shape h b
  rw [hh, List.getLast?_concat]

theorem handleUndo_blocks (st' : AppState) (h : List Doc) (b : Doc)
    (hh : st'.history = pushHistory h b) : (handleUndo st').blocks = b := by
  unfold handleUndo
  rw [hh, pushHistory_getLast?]

/-- Claim C10: a successful import (at least one parsed block) snapshots the
pre-import document, clears redo, installs the parsed blocks with active
index 0, and a single immediate undo restores the pre-import document. -/
theorem import_snapshot_undo (st : AppState) (nextId : Nat) (content : Str)
    (bs : List TabBlock) (h : importBlocks nextId content = some bs)
    (hne : bs ≠ []) :
    ∃ st', handleImportApp nextId content st = some st' ∧
      st'.blocks = bs ∧ st'.activeBlockIndex = 0 ∧
      st'.history = pushHistory st.history st.blocks ∧ st'.redoStack = [] ∧
      (handleUndo st').blocks = st.blocks := by
  refine ⟨{ saveState st with blocks := bs, activeBlockIndex := 0 },
    ?_, rfl, rfl, rfl, rfl, ?_⟩
  · simp only [handleImportApp, h]
    rw [if_neg hne]
  · exact handleUndo_blocks _ st.history st.blocks rfl

def importTextW : Str := "Parte 1\ne |\nB |\nG |\nD |\nA |\nE |".data

def importedW : List TabBlock :=
  [{ id := 0, columns := [], cursorPosition := 0, title := [] }]

theorem import_snapshot_undo_witness :
    ∃ st', handleImportApp 0 importTextW (initState 0) = some st' ∧
      st'.blocks = importedW ∧ st'.activeBlockIndex = 0 ∧
      st'.history = pushHistory (initState 0).history (initState 0).blocks ∧
      st'.redoStack = [] ∧
      (handleUndo st').blocks = (initState 0).blocks :=
  import_snapshot_undo (initState 0) 0 importTextW importedW (by decide) (by decide)

/-! ## Round-trip: label hygiene and line splitting -/

/-- A label that survives the 2-character cell codec: at most two characters,
none of them whitespace and none a dash. -/
def CleanLabel (l : Str) : Prop :=
  l.length ≤ 2 ∧ ∀ c ∈ l, isJsWhitespace c = false ∧ c ≠ '-'

/-- A cell with a clean (or no) label. -/
def CleanCell : Option TabNote → Prop
  | none => True
  | some n => CleanLabel n.fret

instance (l : Str) : Decidable (CleanLabel l) :=
  inferInstanceAs (Decidable (l.length ≤ 2 ∧ ∀ c ∈ l, isJsWhitespace c = false ∧ c ≠ '-'))

instance (cell : Option TabNote) : Decidable (CleanCell cell) :=
  match cell with
  | none => isTrue trivial
  | some n => inferInstanceAs (Decidable (CleanLabel n.fret))

def CleanCols (cols : List TabColumn) : Prop :=
  ∀ col ∈ cols, col.length = 6 ∧ ∀ cell ∈ col, CleanCell cell

instance (cols : List TabColumn) : Decidable (CleanCols cols) :=
  inferInstanceAs
    (Decidable (∀ col ∈ cols, col.length = 6 ∧ ∀ cell ∈ col, CleanCell cell))

/-- A block the round trip can reproduce: clean labels, 6-cell columns, and a
title free of newlines (a newline inside a title would fabricate file lines). -/
def CleanBlock (b : TabBlock) : Prop := CleanCols b.columns ∧ '\n' ∉ b.title

instance (b : TabBlock) : Decidable (CleanBlock b) :=
  inferInstanceAs (Decidable (CleanCols b.columns ∧ '\n' ∉ b.title))

def decDigits : List Char := ['0', '1', '2', '3', '4', '5', '6', '7', '8', '9']

theorem natToCharsAux_mem : ∀ (fuel n : Nat), ∀ c ∈ natToCharsAux fuel n,
    c ∈ decDigits := by
  intro fuel
  induction fuel with
  | zero => intro n c hc; simp [natToCharsAux] at hc
  | succ fuel ih =>
      intro n c hc
      rw [natToCharsAux] at hc
      by_cases h : n < 10
      · rw [if_pos h] at hc
        simp only [List.mem_singleton] at hc
        subst hc
        interval_cases n <;> decide
      · rw [if_neg h] at hc
        rcases List.mem_append.mp hc with h1 | h2
        · exact ih _ c h1
        · simp only [List.mem_singleton] at h2
          subst h2
          have hm : n % 10 < 10 := Nat.mod_lt _ (by norm_num)
          generalize hd : n % 10 = d at hm ⊢
          interval_cases d <;> decide

theorem natToChars_mem (n : Nat) : ∀ c ∈ natToChars n, c ∈ decDigits :=
  natToCharsAux_mem (n + 1) n

theorem natToChars_no_newline (n : Nat) : '\n' ∉ natToChars n := by
  intro h
  have := natToChars_mem n '\n' h
  simp [decDigits] at this

theorem beginsWith_append_self (p r : Str) : beginsWith p (p ++ r) = true := by
  induction p with
  | nil => rfl
  | cons c cs ih => simp [beginsWith, ih]

theorem beginsWith_cons_false {p c : Char} (ps cs : List Char) (h : p ≠ c) :
    beginsWith (p :: ps) (c :: cs) = false := by
  show (p == c && beginsWith ps cs) = false
  rw [beq_eq_false_iff_ne.mpr h]
  rfl

theorem splitLines_append (l r : Str) (h : '\n' ∉ l) :
    splitLines (l ++ '\n' :: r) = l :: splitLines r := by
  induction l with
  | nil =>
      show splitLines ('\n' :: r) = [] :: splitLines r
      simp [splitLines]
  | cons c cs ih =>
      have hc : c ≠ '\n' := fun he => h (by simp [he])
      have hcs : '\n' ∉ cs := fun hm => h (by simp [hm])
      show splitLines (c :: (cs ++ '\n' :: r)) = (c :: cs) :: splitLines r
      rw [splitLines, if_neg hc, ih hcs]

theorem splitLines_joinNl : ∀ (lines : List Str), (∀ l ∈ lines, '\n' ∉ l) →
    splitLines ((lines.map (fun l => l ++ ['\n'])).flatten) = lines ++ [[]] := by
  intro lines
  induction lines with
  | nil => intro _; rfl
  | cons l ls ih =>
      intro h
      show splitLines ((l ++ ['\n']) ++ (ls.map (fun l => l ++ ['\n'])).flatten) = _
      rw [List.append_assoc]
      show splitLines (l ++ '\n' :: (ls.map (fun l => l ++ ['\n'])).flatten) = _
      rw [splitLines_append _ _ (h l (by simp)), ih (fun x hx => h x (by simp [hx]))]
      rfl

/-! ## Round-trip: cell and row decoding -/

/-- The decoded value of a cell after the export/import cycle. -/
def roundCell (cell : Option TabNote) : Option TabNote :=
  if cleanChunk (padCell cell) = [] then none
  else some ⟨cleanChunk (padCell cell)⟩

/-- The decoded value of a whole column after the cycle. -/
def roundColumn (col : TabColumn) : TabColumn :=
  (List.range 6).map fun s => roundCell (col.getD s none)

/-- The effect of one imported string row on one accumulated column. -/
def rowUpd (s : Nat) (a : TabColumn) (col : TabColumn) : TabColumn :=
  match roundCell (col.getD s none) with
  | none => a
  | some n => a.set s (some n)

/-- The accumulated column after the first `s` string rows of a block. -/
def accumCol : Nat → TabColumn → TabColumn
  | 0, _ => emptyColumn
  | s + 1, col => rowUpd s (accumCol s col) col

theorem roundCell_none : roundCell none = none := by decide

theorem roundCell_some (l : Str) (h : CleanLabel l) :
    roundCell (some ⟨l⟩) = if l = [] then none else some ⟨l⟩ := by
  obtain ⟨hlen, hch⟩ := h
  match l, hlen with
  | [], _ => decide
  | [a], _ =>
      obtain ⟨hwa, ha⟩ := hch a (by simp)
      have hda : decide (a = '-') = false := by simp [ha]
      simp [roundCell, cleanChunk, padCell, jsTrim, List.dropWhile, hwa,
        List.filter, hda]
  | [a, b], _ =>
      obtain ⟨hwa, ha⟩ := hch a (by simp)
      obtain ⟨hwb, hb⟩ := hch b (by simp)
      have hda : decide (a = '-') = false := by simp [ha]
      have hdb : decide (b = '-') = false := by simp [hb]
      simp [roundCell, cleanChunk, padCell, jsTrim, List.dropWhile, hwa, hwb,
        List.filter, hda, hdb]
  | _ :: _ :: _ :: _, hlen => simp at hlen

theorem padCell_length (cell : Option TabNote)
    (h : ∀ n : TabNote, cell = some n → CleanLabel n.fret) :
    (padCell cell).length = 2 := by
  cases cell with
  | none => rfl
  | some n =>
      have := (h n rfl).1
      simp only [padCell, List.length_append, List.length_replicate]
      omega

theorem padCell_not_ws (cell : Option TabNote)
    (h : ∀ n : TabNote, cell = some n → CleanLabel n.fret) :
    ∀ c ∈ padCell cell, isJsWhitespace c = false := by
  cases cell with
  | none =>
      intro c hc
      simp only [padCell, List.mem_cons, List.not_mem_nil, or_false] at hc
      rcases hc with rfl | rfl <;> decide
  | some n =>
      intro c hc
      simp only [padCell, List.mem_append] at hc
      rcases hc with h1 | h2
      · exact ((h n rfl).2 c h1).1
      · rw [List.eq_of_mem_replicate h2]
        decide

theorem lineTerm_is_ws (c : Char) (h : isLineTerm c = true) :
    isJsWhitespace c = true := by
  simp only [isLineTerm, Bool.or_eq_true, beq_iff_eq] at h
  rcases h with ((rfl | rfl) | rfl) | rfl <;> decide

theorem cellsOf_not_ws (s : Nat) (cols : List TabColumn) (hcl : CleanCols cols) :
    ∀ c ∈ cellsOf s cols, isJsWhitespace c = false := by
  intro c hc
  simp only [cellsOf, List.mem_flatten, List.mem_map] at hc
  obtain ⟨piece, ⟨col, hcol, rfl⟩, hmem⟩ := hc
  refine padCell_not_ws _ ?_ c hmem
  intro n hn
  rcases hn' : col.getD s none with _ | m
  · rw [hn'] at hn; exact Option.noConfusion hn
  · rw [hn'] at hn
    cases hn
    rcases Nat.lt_or_ge s col.length with hlt | hge
    · have hmm : col.getD s none ∈ col := by
        rw [List.getD_eq_getElem _ _ hlt]
        exact List.getElem_mem hlt
      rw [hn'] at hmm
      exact (hcl col hcol).2 (some n) hmm
    · rw [List.getD_eq_default _ _ hge] at hn'
      exact Option.noConfusion hn'

theorem cellsOf_dropWhile (s : Nat) (cols : List TabColumn) (hcl : CleanCols cols) :
    (cellsOf s cols).dropWhile isJsWhitespace = cellsOf s cols := by
  cases hc : cellsOf s cols with
  | nil => rfl
  | cons c t =>
      have hcw : isJsWhitespace c = false := by
        refine cellsOf_not_ws s cols hcl c ?_
        rw [hc]; simp
      simp [List.dropWhile, hcw]

theorem cellsOf_no_lineTerm (s : Nat) (cols : List TabColumn) (hcl : CleanCols cols) :
    (cellsOf s cols).all (fun c => !isLineTerm c) = true := by
  rw [List.all_eq_true]
  intro c hc
  have hw := cellsOf_not_ws s cols hcl c hc
  by_cases hl : isLineTerm c = true
  · rw [lineTerm_is_ws c hl] at hw
    exact Bool.noConfusion hw
  · simp only [Bool.not_eq_true] at hl
    simp [hl]

theorem chunksOf2_flatten : ∀ (ps : List Str), (∀ p ∈ ps, p.length = 2) →
    chunksOf2 ps.flatten = ps := by
  intro ps
  induction ps with
  | nil => intro _; rfl
  | cons p rest ih =>
      intro h
      have hp := h p (by simp)
      match p, hp with
      | [a, b], _ =>
          show chunksOf2 (a :: b :: rest.flatten) = [a, b] :: rest
          rw [chunksOf2, ih (fun x hx => h x (by simp [hx]))]

theorem rowUpd_if (a col : TabColumn) (s : Nat) :
    (if cleanChunk (padCell (col.getD s none)) = [] then a
      else a.set s (some ⟨cleanChunk (padCell (col.getD s none))⟩)) =
      rowUpd s a col := by
  simp only [rowUpd, roundCell]
  by_cases hch : cleanChunk (padCell (col.getD s none)) = []
  · rw [if_pos hch, if_pos hch]
  · rw [if_neg hch, if_neg hch]

theorem applyRow_spec (s : Nat) : ∀ (cols acc : List TabColumn),
    acc.length = cols.length →
    applyRow s (cols.map fun col => padCell (col.getD s none)) acc =
      some (List.zipWith (fun a col => rowUpd s a col) acc cols) := by
  intro cols
  induction cols with
  | nil =>
      intro acc hl
      rw [List.length_nil, List.length_eq_zero] at hl
      subst hl
      rfl
  | cons col rest ih =>
      intro acc hl
      cases acc with
      | nil => simp at hl
      | cons a as =>
          show applyRow s (padCell (col.getD s none) :: rest.map _) (a :: as) = _
          rw [applyRow, ih as (by simpa using hl), List.zipWith_cons_cons,
            ← rowUpd_if a col s]
          rfl

theorem zipWith_map_self (g : TabColumn → TabColumn → TabColumn)
    (f : TabColumn → TabColumn) :
    ∀ cols : List TabColumn,
      List.zipWith g (cols.map f) cols = cols.map fun c => g (f c) c := by
  intro cols
  induction cols with
  | nil => rfl
  | cons c cs ih => simp [ih]

theorem accumCol_six (col : TabColumn) : accumCol 6 col = roundColumn col := by
  have hr : roundColumn col =
      [roundCell (col.getD 0 none), roundCell (col.getD 1 none),
       roundCell (col.getD 2 none), roundCell (col.getD 3 none),
       roundCell (col.getD 4 none), roundCell (col.getD 5 none)] := rfl
  show rowUpd 5 (rowUpd 4 (rowUpd 3 (rowUpd 2 (rowUpd 1 (rowUpd 0 emptyColumn col)
    col) col) col) col) col = roundColumn col
  rw [hr]
  simp only [rowUpd]
  generalize roundCell (col.getD 0 none) = r0
  generalize roundCell (col.getD 1 none) = r1
  generalize roundCell (col.getD 2 none) = r2
  generalize roundCell (col.getD 3 none) = r3
  generalize roundCell (col.getD 4 none) = r4
  generalize roundCell (col.getD 5 none) = r5
  cases r0 <;> cases r1 <;> cases r2 <;> cases r3 <;> cases r4 <;> cases r5 <;> rfl

/-! ## Round-trip: line processing -/

theorem cell_clean (cols : List TabColumn) (hcl : CleanCols cols)
    (col : TabColumn) (hcol : col ∈ cols) (s : Nat) :
    ∀ n : TabNote, col.getD s none = some n → CleanLabel n.fret := by
  intro n hn
  rcases Nat.lt_or_ge s col.length with hlt | hge
  · have hmm : col.getD s none ∈ col := by
      rw [List.getD_eq_getElem _ _ hlt]
      exact List.getElem_mem hlt
    rw [hn] at hmm
    exact (hcl col hcol).2 (some n) hmm
  · rw [List.getD_eq_default _ _ hge] at hn
    exact Option.noConfusion hn

theorem processLines_cons (ps ps' : ParseSt) (l : Str) (ls : List Str)
    (h : processLine ps l = some ps') :
    processLines ps (l :: ls) = processLines ps' ls := by
  simp only [processLines, h]

theorem processLines_append : ∀ (A B : List Str) (ps : ParseSt),
    processLines ps (A ++ B) =
      match processLines ps A with
      | none => none
      | some ps' => processLines ps' B := by
  intro A
  induction A with
  | nil => intro B ps; rfl
  | cons l ls ih =>
      intro B ps
      show processLines ps (l :: (ls ++ B)) = _
      simp only [processLines]
      cases processLine ps l with
      | none => rfl
      | some ps' => exact ih B ps'

theorem processLine_blank (ps : ParseSt) : processLine ps [] = some ps := rfl

theorem processLine_preamble (ps : ParseSt) :
    processLine ps ("Hunter Tab Maker - Composição".data) = some ps := rfl

theorem processLine_parte (ps : ParseSt) (n : Nat) :
    processLine ps (parteLine n) =
      some { ps with stringsFound := 0, currentPartCols := [],
                     currentTitle := [], aliased := false } := by
  have hP : beginsWith parteMarker (parteLine n) = true := beginsWith_append_self _ _
  have hT : beginsWith tituloMarker (parteLine n) = false :=
    beginsWith_cons_false _ _ (by decide)
  have hM : matchRow (parteLine n) = none := by
    have h1 : parteLine n = 'P' :: 'a' :: 'r' :: ('t' :: 'e' :: ' ' :: natToChars n) :=
      rfl
    rw [h1]
    simp only [matchRow]
    rw [if_neg (by decide)]
  simp only [processLine, hP, hT, hM, Bool.false_eq_true, if_false, if_true]

theorem processLine_titulo (ps : ParseSt) (t : Str) :
    processLine ps (tituloLine t) =
      some { ps with currentTitle := jsTrim (' ' :: t) } := by
  have hP : beginsWith parteMarker (tituloLine t) = false :=
    beginsWith_cons_false _ _ (by decide)
  have hT : beginsWith tituloMarker (tituloLine t) = true := beginsWith_append_self _ _
  have hM : matchRow (tituloLine t) = none := by
    have h1 : tituloLine t =
        'T' :: 'í' :: 't' :: ('u' :: 'l' :: 'o' :: ':' :: ' ' :: t) := rfl
    rw [h1]
    simp only [matchRow]
    rw [if_neg (by decide)]
  have hdrop : (tituloLine t).drop tituloMarker.length = ' ' :: t := by
    show (tituloMarker ++ (' ' :: t)).drop tituloMarker.length = ' ' :: t
    exact List.drop_left _ _
  simp only [processLine, hP, hT, hM, Bool.false_eq_true, if_false, if_true, hdrop]

theorem matchRow_rowLine (s : Nat) (hs : s < 6) (cols : List TabColumn)
    (hcl : CleanCols cols) :
    matchRow (rowLine s cols) = some (s, cellsOf s cols) := by
  have hcond : (STRING_NAMES.contains (STRING_NAMES.getD s ' ') &&
      isJsWhitespace ' ' && ('|' == '|')) = true := by
    interval_cases s <;> decide
  have hidx : STRING_NAMES.findIdx (· == STRING_NAMES.getD s ' ') = s := by
    interval_cases s <;> decide
  show matchRow (STRING_NAMES.getD s ' ' :: ' ' :: '|' :: cellsOf s cols) =
    some (s, cellsOf s cols)
  simp only [matchRow]
  rw [if_pos hcond]
  simp only [cellsOf_dropWhile s cols hcl, cellsOf_no_lineTerm s cols hcl,
    if_true, hidx]

theorem replicate_eq_map_accumCol_zero : ∀ cols : List TabColumn,
    List.replicate cols.length emptyColumn = cols.map (accumCol 0) := by
  intro cols
  induction cols with
  | nil => rfl
  | cons c cs ih =>
      simp only [List.length_cons, List.replicate_succ, List.map_cons]
      rw [ih]
      rfl

theorem zip_row_step (s : Nat) (cols : List TabColumn) :
    List.zipWith (fun a col => rowUpd s a col) (cols.map (accumCol s)) cols =
      cols.map (accumCol (s + 1)) := by
  rw [zipWith_map_self]
  rfl

theorem processLine_row (ps : ParseSt) (s : Nat) (cols : List TabColumn)
    (hs : s < 6) (hcl : CleanCols cols)
    (hcols : (ps.currentPartCols = [] ∧ s = 0) ∨
      ps.currentPartCols = cols.map (accumCol s))
    (hfound : ps.stringsFound = s)
    (hal : ps.aliased = false) :
    processLine ps (rowLine s cols) =
      some (if s + 1 = 6 then
        { ps with
          newBlocks := ps.newBlocks ++
            [{ id := ps.nextId, columns := cols.map (accumCol (s + 1)),
               cursorPosition := 0, title := ps.currentTitle }]
          currentPartCols := cols.map (accumCol (s + 1))
          stringsFound := s + 1
          nextId := ps.nextId + 1
          aliased := true }
      else
        { ps with currentPartCols := cols.map (accumCol (s + 1))
                  stringsFound := s + 1
                  aliased := false }) := by
  have hP : beginsWith parteMarker (rowLine s cols) = false := by
    refine beginsWith_cons_false _ _ ?_
    interval_cases s <;> decide
  have hT : beginsWith tituloMarker (rowLine s cols) = false := by
    refine beginsWith_cons_false _ _ ?_
    interval_cases s <;> decide
  have hM := matchRow_rowLine s hs cols hcl
  have hchunks : chunksOf2 (cellsOf s cols) =
      cols.map (fun col => padCell (col.getD s none)) := by
    refine chunksOf2_flatten _ ?_
    intro p hp
    simp only [List.mem_map] at hp
    obtain ⟨col, hcol, rfl⟩ := hp
    exact padCell_length _ (cell_clean cols hcl col hcol s)
  simp only [processLine, hP, hT, hM, Bool.false_eq_true, if_false, hchunks]
  have hrow : applyRow s (cols.map fun col => padCell (col.getD s none))
      (cols.map (accumCol s)) = some (cols.map (accumCol (s + 1))) := by
    rw [applyRow_spec s cols (cols.map (accumCol s)) (by simp), zip_row_step]
  rcases hcols with ⟨hnil, rfl⟩ | hmap
  · rw [hnil]
    simp at hrow
    simp [List.length_map, replicate_eq_map_accumCol_zero, hrow, hfound, hal]
  · cases cols with
    | nil =>
        rw [hmap]
        simp only [List.map_nil] at hrow ⊢
        simp [hrow, hfound, hal]
        split_ifs <;> rfl
    | cons c0 crest =>
        rw [hmap]
        have hne : ¬ ((c0 :: crest).map (accumCol s)).length = 0 := by simp
        rw [if_neg hne, if_neg hne]
        simp at hrow
        simp [hrow, hfound, hal, apply_ite]

/-- The title the importer reconstructs for a block. -/
def importTitle (t : Str) : Str := if t = [] then [] else jsTrim (' ' :: t)

/-- The blocks the importer reconstructs from an exported document, with
fresh identifiers from `k` upward. -/
def importedBlocks (k : Nat) : List TabBlock → List TabBlock
  | [] => []
  | b :: rest =>
      { id := k, columns := b.columns.map roundColumn, cursorPosition := 0,
        title := importTitle b.title } :: importedBlocks (k + 1) rest

/-- The parser state between string rows `k` and `k+1` of a block. -/
abbrev midRow (ps : ParseSt) (cols : List TabColumn) (k : Nat) : ParseSt :=
  { ps with currentPartCols := cols.map (accumCol k), stringsFound := k
            aliased := false }

theorem processLines_sixRows (ps : ParseSt) (cols : List TabColumn)
    (hcl : CleanCols cols) (hnil : ps.currentPartCols = [])
    (hfound : ps.stringsFound = 0) (hal : ps.aliased = false) (rest : List Str) :
    processLines ps (rowLine 0 cols :: rowLine 1 cols :: rowLine 2 cols ::
      rowLine 3 cols :: rowLine 4 cols :: rowLine 5 cols :: rest) =
      processLines { ps with
        newBlocks := ps.newBlocks ++
          [{ id := ps.nextId, columns := cols.map (accumCol 6),
             cursorPosition := 0, title := ps.currentTitle }]
        currentPartCols := cols.map (accumCol 6)
        stringsFound := 6
        nextId := ps.nextId + 1
        aliased := true } rest := by
  have h0 := processLine_row ps 0 cols (by norm_num) hcl (Or.inl ⟨hnil, rfl⟩) hfound hal
  rw [if_neg (by norm_num)] at h0
  norm_num at h0
  rw [processLines_cons _ _ _ _ h0]
  have h1 := processLine_row (midRow ps cols 1) 1 cols (by norm_num) hcl
    (Or.inr rfl) rfl rfl
  rw [if_neg (by norm_num)] at h1
  norm_num at h1
  rw [processLines_cons _ _ _ _ h1]
  have h2 := processLine_row (midRow ps cols 2) 2 cols (by norm_num) hcl
    (Or.inr rfl) rfl rfl
  rw [if_neg (by norm_num)] at h2
  norm_num at h2
  rw [processLines_cons _ _ _ _ h2]
  have h3 := processLine_row (midRow ps cols 3) 3 cols (by norm_num) hcl
    (Or.inr rfl) rfl rfl
  rw [if_neg (by norm_num)] at h3
  norm_num at h3
  rw [processLines_cons _ _ _ _ h3]
  have h4 := processLine_row (midRow ps cols 4) 4 cols (by norm_num) hcl
    (Or.inr rfl) rfl rfl
  rw [if_neg (by norm_num)] at h4
  norm_num at h4
  rw [processLines_cons _ _ _ _ h4]
  have h5 := processLine_row (midRow ps cols 5) 5 cols (by norm_num) hcl
    (Or.inr rfl) rfl rfl
  rw [if_pos rfl] at h5
  norm_num at h5
  rw [processLines_cons _ _ _ _ h5]

theorem processLines_blockRun (b : TabBlock) (hb : CleanBlock b) (n : Nat)
    (ps : ParseSt) :
    processLines ps (blockLines n b) =
      some { ps with
        newBlocks := ps.newBlocks ++
          [{ id := ps.nextId, columns := b.columns.map roundColumn,
             cursorPosition := 0, title := importTitle b.title }]
        currentPartCols := b.columns.map roundColumn
        currentTitle := importTitle b.title
        stringsFound := 6
        nextId := ps.nextId + 1
        aliased := true } := by
  obtain ⟨hcl, _hnl⟩ := hb
  have hmap6 : b.columns.map (accumCol 6) = b.columns.map roundColumn :=
    List.map_congr_left (fun col _ => accumCol_six col)
  have hrows : (List.range 6).map (fun s => rowLine s b.columns) =
      [rowLine 0 b.columns, rowLine 1 b.columns, rowLine 2 b.columns,
       rowLine 3 b.columns, rowLine 4 b.columns, rowLine 5 b.columns] := rfl
  show processLines ps (parteLine n ::
    ((if b.title = [] then [] else [tituloLine b.title]) ++
      (List.range 6).map (fun s => rowLine s b.columns) ++ [[]])) = _
  rw [processLines_cons _ _ _ _ (processLine_parte ps n), hrows]
  by_cases ht : b.title = []
  · rw [if_pos ht]
    simp only [List.nil_append, List.cons_append]
    rw [processLines_sixRows _ b.columns hcl rfl rfl rfl]
    rw [processLines_cons _ _ _ _ (processLine_blank _)]
    show some _ = _
    rw [hmap6]
    simp [importTitle, ht]
  · rw [if_neg ht]
    simp only [List.cons_append, List.nil_append]
    rw [processLines_cons _ _ _ _ (processLine_titulo _ b.title)]
    rw [processLines_sixRows _ b.columns hcl rfl rfl rfl]
    rw [processLines_cons _ _ _ _ (processLine_blank _)]
    show some _ = _
    rw [hmap6]
    simp [importTitle, ht]

theorem noNl_blockLines (b : TabBlock) (hb : CleanBlock b) (n : Nat) :
    ∀ l ∈ blockLines n b, '\n' ∉ l := by
  obtain ⟨hcl, hnl⟩ := hb
  intro l hl
  simp only [blockLines, List.mem_cons, List.mem_append, List.mem_map] at hl
  rcases hl with rfl | (hopt | ⟨s, hs, rfl⟩) | (rfl | habs)
  · intro hmem
    simp only [parteLine, List.mem_append, List.mem_cons] at hmem
    rcases hmem with h1 | h2 | h3
    · exact absurd h1 (by decide)
    · exact absurd h2 (by decide)
    · exact natToChars_no_newline n h3
  · by_cases ht : b.title = []
    · rw [if_pos ht] at hopt
      simp at hopt
    · rw [if_neg ht] at hopt
      simp only [List.mem_singleton] at hopt
      subst hopt
      intro hmem
      simp only [tituloLine, List.mem_append, List.mem_cons] at hmem
      rcases hmem with h1 | h2 | h3
      · exact absurd h1 (by decide)
      · exact absurd h2 (by decide)
      · exact hnl h3
  · rw [List.mem_range] at hs
    intro hmem
    simp only [rowLine, List.mem_cons] at hmem
    rcases hmem with h1 | h2 | h3 | h4
    · revert h1
      interval_cases s <;> decide
    · exact absurd h2 (by decide)
    · exact absurd h3 (by decide)
    · have := cellsOf_not_ws s b.columns hcl '\n' h4
      exact absurd this (by decide)
  · simp
  · simp at habs

theorem noNl_blocksLines : ∀ (blocks : List TabBlock) (i : Nat),
    (∀ b ∈ blocks, CleanBlock b) → ∀ l ∈ blocksLines i blocks, '\n' ∉ l := by
  intro blocks
  induction blocks with
  | nil => intro i _ l hl; simp [blocksLines] at hl
  | cons b rest ih =>
      intro i h l hl
      rw [blocksLines, List.mem_append] at hl
      rcases hl with h1 | h2
      · exact noNl_blockLines b (h b (by simp)) (i + 1) l h1
      · exact ih (i + 1) (fun x hx => h x (by simp [hx])) l h2

theorem noNl_exportLines (blocks : List TabBlock)
    (h : ∀ b ∈ blocks, CleanBlock b) : ∀ l ∈ exportLines blocks, '\n' ∉ l := by
  intro l hl
  simp only [exportLines, List.mem_cons] at hl
  rcases hl with rfl | rfl | hl
  · decide
  · simp
  · exact noNl_blocksLines blocks 0 h l hl

theorem processLines_blocksLines : ∀ (blocks : List TabBlock) (i : Nat)
    (ps : ParseSt), (∀ b ∈ blocks, CleanBlock b) →
    ∃ psf, processLines ps (blocksLines i blocks) = some psf ∧
      psf.newBlocks = ps.newBlocks ++ importedBlocks ps.nextId blocks := by
  intro blocks
  induction blocks with
  | nil => intro i ps _; exact ⟨ps, rfl, by simp [importedBlocks]⟩
  | cons b rest ih =>
      intro i ps h
      rw [blocksLines, processLines_append,
        processLines_blockRun b (h b (by simp)) (i + 1) ps]
      obtain ⟨psf, hproc, hnb⟩ :=
        ih (i + 1) _ (fun x hx => h x (by simp [hx]))
      refine ⟨psf, hproc, ?_⟩
      rw [hnb]
      show (ps.newBlocks ++ _) ++ importedBlocks (ps.nextId + 1) rest = _
      rw [List.append_assoc]
      rfl

theorem importBlocks_exportTab (blocks : List TabBlock) (k : Nat)
    (hclean : ∀ b ∈ blocks, CleanBlock b) :
    importBlocks k (exportTab blocks) = some (importedBlocks k blocks) := by
  unfold importBlocks exportTab
  rw [splitLines_joinNl _ (noNl_exportLines blocks hclean)]
  show (processLines (initParseSt k)
    (("Hunter Tab Maker - Composição".data :: [] :: blocksLines 0 blocks) ++ [[]])).map
      (fun ps => ps.newBlocks) = _
  simp only [List.cons_append]
  rw [processLines_cons _ _ _ _ (processLine_preamble _),
    processLines_cons _ _ _ _ (processLine_blank _),
    processLines_append]
  obtain ⟨psf, hproc, hnb⟩ :=
    processLines_blocksLines blocks 0 (initParseSt k) hclean
  rw [hproc]
  show (processLines psf [[]]).map (fun ps => ps.newBlocks) =
    some (importedBlocks k blocks)
  rw [processLines_cons _ _ _ _ (processLine_blank _)]
  show some psf.newBlocks = _
  rw [hnb]
  rfl

/-- The non-empty label the document shows at a (column, string) coordinate. -/
def nonEmptyLabelAt (b : TabBlock) (c s : Nat) : Option Str :=
  match (b.columns.getD c []).getD s none with
  | none => none
  | some n => if n.fret = [] then none else some n.fret

theorem roundColumn_getD (col : TabColumn) (s : Nat) :
    (roundColumn col).getD s none =
      if s < 6 then roundCell (col.getD s none) else none := by
  rcases Nat.lt_or_ge s 6 with h | h
  · rw [if_pos h]
    rw [List.getD_eq_getElem _ _ (by simpa [roundColumn] using h)]
    simp [roundColumn]
  · rw [if_neg (not_lt.mpr h), List.getD_eq_default _ _ (by simpa [roundColumn] using h)]

theorem nonEmptyLabel_round (b : TabBlock) (hcl : CleanCols b.columns)
    (k : Nat) (t : Str) : ∀ c s,
    nonEmptyLabelAt ⟨k, b.columns.map roundColumn, 0, t⟩ c s =
      nonEmptyLabelAt b c s := by
  intro c s
  show (match ((b.columns.map roundColumn).getD c []).getD s none with
    | none => none
    | some n => if n.fret = [] then none else some n.fret) = _
  rcases Nat.lt_or_ge c b.columns.length with hc | hc
  · have hmem : b.columns.getD c [] ∈ b.columns := by
      rw [List.getD_eq_getElem _ _ hc]
      exact List.getElem_mem hc
    have hmap : (b.columns.map roundColumn).getD c [] =
        roundColumn (b.columns.getD c []) := by
      rw [List.getD_eq_getElem _ _ (by simpa using hc),
        List.getD_eq_getElem _ _ hc]
      simp
    rw [hmap, roundColumn_getD]
    have hlen6 := (hcl _ hmem).1
    rcases Nat.lt_or_ge s 6 with hs | hs
    · rw [if_pos hs]
      cases hcell : (b.columns.getD c []).getD s none with
      | none =>
          rw [roundCell_none]
          unfold nonEmptyLabelAt
          rw [hcell]
      | some n =>
          obtain ⟨fr⟩ := n
          have hclean := cell_clean b.columns hcl _ hmem s ⟨fr⟩ hcell
          rw [roundCell_some fr hclean]
          show (match (if fr = [] then none else some (⟨fr⟩ : TabNote)) with
            | none => none
            | some n => if n.fret = [] then none else some n.fret) =
            nonEmptyLabelAt b c s
          unfold nonEmptyLabelAt
          rw [hcell]
          by_cases hfr : fr = [] <;> simp [hfr]
    · rw [if_neg (not_lt.mpr hs)]
      unfold nonEmptyLabelAt
      rw [List.getD_eq_default _ _ (by omega : (b.columns.getD c []).length ≤ s)]
  · have h1 : (b.columns.map roundColumn).getD c [] = [] :=
      List.getD_eq_default _ _ (by simpa using hc)
    have h2 : b.columns.getD c [] = [] := List.getD_eq_default _ _ hc
    rw [h1]
    unfold nonEmptyLabelAt
    rw [h2]

theorem importedBlocks_length : ∀ (bs : List TabBlock) (k : Nat),
    (importedBlocks k bs).length = bs.length := by
  intro bs
  induction bs with
  | nil => intro k; rfl
  | cons b rest ih => intro k; simp [importedBlocks, ih]

theorem importedBlocks_forall : ∀ (bs : List TabBlock) (k : Nat),
    (∀ b ∈ bs, CleanBlock b) →
    List.Forall₂ (fun b b' =>
      b'.columns.length = b.columns.length ∧
      ∀ c s, nonEmptyLabelAt b' c s = nonEmptyLabelAt b c s)
      bs (importedBlocks k bs) := by
  intro bs
  induction bs with
  | nil => intro k _; exact List.Forall₂.nil
  | cons b rest ih =>
      intro k h
      refine List.Forall₂.cons ⟨by simp, ?_⟩ (ih (k + 1) (fun x hx => h x (by simp [hx])))
      exact nonEmptyLabel_round b (h b (by simp)).1 k (importTitle b.title)

/-- Claim C1 (amended): exporting then importing reproduces the block count,
every column count and every non-empty cell label, provided each label has at
most two characters none of which is whitespace or a dash, each column has six
cells, and no title contains a newline. -/
theorem export_import_roundtrip (blocks : List TabBlock) (k : Nat)
    (_hne : blocks ≠ []) (hclean : ∀ b ∈ blocks, CleanBlock b) :
    ∃ bs', importBlocks k (exportTab blocks) = some bs' ∧
      bs'.length = blocks.length ∧
      List.Forall₂ (fun b b' =>
        b'.columns.length = b.columns.length ∧
        ∀ c s, nonEmptyLabelAt b' c s = nonEmptyLabelAt b c s) blocks bs' :=
  ⟨importedBlocks k blocks, importBlocks_exportTab blocks k hclean,
    importedBlocks_length blocks k, importedBlocks_forall blocks k hclean⟩

/-- A one-column block whose only label is the dash technique symbol. -/
def dashBlock : TabBlock :=
  { id := 0, columns := [[some ⟨['-']⟩, none, none, none, none, none]]
    cursorPosition := 0, title := [] }

theorem export_import_roundtrip_cex :
    (∀ col ∈ dashBlock.columns, ∀ cell ∈ col, ∀ n : TabNote, cell = some n →
      n.fret.length ≤ 2) ∧
    (importBlocks 0 (exportTab [dashBlock])).map
      (fun bs => bs.map fun b => nonEmptyLabelAt b 0 0) = some [none] ∧
    nonEmptyLabelAt dashBlock 0 0 = some ['-'] := by decide

/-- A clean two-column document with a fret 3 at (column 0, string 0). -/
def rtBlock : TabBlock :=
  { id := 5
    columns := [[some ⟨['3']⟩, none, none, none, none, none], List.replicate 6 none]
    cursorPosition := 0, title := [] }

theorem export_import_roundtrip_witness :
    ∃ bs', importBlocks 7 (exportTab [rtBlock]) = some bs' ∧
      bs'.length = [rtBlock].length ∧
      List.Forall₂ (fun b b' =>
        b'.columns.length = b.columns.length ∧
        ∀ c s, nonEmptyLabelAt b' c s = nonEmptyLabelAt b c s) [rtBlock] bs' :=
  export_import_roundtrip [rtBlock] 7 (by decide)
    (by
      intro b hb
      simp only [List.mem_singleton] at hb
      subst hb
      exact ⟨by decide, by decide⟩)

end HunterTab
